import Mathlib

/-!
Verification development for the citation-resolution pipeline of
`py/shared/utils/base_utils.py` (repository FutureProofTech/R2R).

Text is modelled as `List Char`.  The regular expression `\[(\d+)\]` used by
`extract_citations` / `finalize_citations_with_collector` matches a literal
bracket, a nonempty run of decimal digits, and a closing bracket; since a
match contains `[` only at its first character, matches of this pattern can
never overlap, so `re.finditer` returns exactly the set of positions at which
such a token starts, in ascending order.  The scanner below emits a match at
every such position, which is therefore an exact model of `finditer` for this
pattern.  (Python `\d` also matches non-ASCII decimal digits; this embedding,
like the strings the pipeline processes, restricts attention to ASCII digits.)
-/

namespace R2R

/-- ASCII decimal digit test, modelling `\d` of the scan pattern. -/
def isDigitChar (c : Char) : Bool :=
  48 ≤ c.toNat && c.toNat ≤ 57

/-- Split a list into its maximal leading run of decimal digits and the rest,
modelling the greedy `\d+` step of the regex engine. -/
def takeDigits : List Char → List Char × List Char
  | [] => ([], [])
  | c :: cs =>
    if isDigitChar c then
      let p := takeDigits cs
      (c :: p.1, p.2)
    else ([], c :: cs)

/-- Value of a big-endian ASCII digit string, modelling Python `int(...)`. -/
def digitsToNat (ds : List Char) : Nat :=
  ds.foldl (fun a c => 10 * a + (c.toNat - 48)) 0

/-- One decimal digit as a character. -/
def digitChar (d : Nat) : Char :=
  match d with
  | 0 => Char.ofNat 48
  | 1 => Char.ofNat 49
  | 2 => Char.ofNat 50
  | 3 => Char.ofNat 51
  | 4 => Char.ofNat 52
  | 5 => Char.ofNat 53
  | 6 => Char.ofNat 54
  | 7 => Char.ofNat 55
  | 8 => Char.ofNat 56
  | _ => Char.ofNat 57

/-- Little-endian decimal digits of `n`, computed with a fuel bound so the
kernel can evaluate it; agrees with `Nat.digits 10 n` for sufficient fuel. -/
def natDigitsRevAux : Nat → Nat → List Nat
  | 0, _ => []
  | fuel + 1, n => if n = 0 then [] else n % 10 :: natDigitsRevAux fuel (n / 10)

/-- Big-endian decimal rendering of a natural number, modelling the digits
produced by Python string formatting of an `int` (`f"[{new_int}]"`). -/
def natToChars (n : Nat) : List Char :=
  if n = 0 then [digitChar 0]
  else ((natDigitsRevAux n n).map digitChar).reverse

/-! ### The bracket scanner (`CITATION_PATTERN.finditer`) -/

/-- One regex match of `\[(\d+)\]`: the digit group and the span. -/
structure BMatch where
  ds : List Char
  start : Nat
  stop : Nat
deriving DecidableEq, Repr

/-- If the text begins with a complete bracket token `[<digits>]`, return the
digit group, else `none`.  This is the regex test at one scan position: a
literal `[`, a nonempty greedy digit run, then a literal `]`. -/
def tokenAt : List Char → Option (List Char)
  | [] => none
  | c :: cs =>
    if c = '[' then
      if (takeDigits cs).1 = [] then none
      else if (takeDigits cs).2.head? = some ']' then some (takeDigits cs).1
      else none
    else none

/-- All matches of `\[(\d+)\]` in the text, with absolute spans; `pos` is the
absolute position of the head of `l`.  Because a match of this pattern cannot
overlap another one (only its first character is `[`), emitting a match at
every token-start position yields exactly `re.finditer`'s match list. -/
def scanAux : List Char → Nat → List BMatch
  | [], _ => []
  | c :: cs, pos =>
    (match tokenAt (c :: cs) with
     | some ds => [{ ds := ds, start := pos, stop := pos + ds.length + 2 }]
     | none => []) ++ scanAux cs (pos + 1)

/-- Position-free view of the scan: just the digit groups, in order. -/
def scanDs : List Char → List (List Char)
  | [] => []
  | c :: cs =>
    (match tokenAt (c :: cs) with
     | some ds => [ds]
     | none => []) ++ scanDs cs

/-! ### Sentence-bounded snippet expansion (`_expand_citation_span_to_sentence`) -/

/-- Sentence terminators, the `sentence_enders` set of the source. -/
def isSentenceEnder (c : Char) : Bool :=
  c = '.' || c = '?' || c = '!'

/-- Whitespace per Python `str.isspace` (restricted to its ASCII members,
which is all the pipeline's inputs use). -/
def isSpaceChar (c : Char) : Bool :=
  c = ' ' || c = '\t' || c = '\n' || c = '\r' || c = Char.ofNat 11 || c = Char.ofNat 12

/-- Length of the leading whitespace run. -/
def countLeadingWs : List Char → Nat
  | [] => 0
  | c :: cs => if isSpaceChar c then countLeadingWs cs + 1 else 0

/-- `while s < len(full_text) and full_text[s].isspace(): s += 1`: the loop
leaves `s` just past the whitespace run starting at position `i`. -/
def skipWs (t : List Char) (i : Nat) : Nat := i + countLeadingWs (t.drop i)

/-- The backward half of `_expand_citation_span_to_sentence`: starting at `s`,
walk left while `s > 0`; on seeing a terminator at position `s`, return
`skipWs (s+1)`; if `s` reaches 0 the loop exits without examining position 0.
Out-of-range reads cannot occur in the source (the start position is a match
position inside the text); `getD` supplies a harmless non-terminator. -/
def backScanLoop (t : List Char) : Nat → Nat
  | 0 => 0
  | s + 1 =>
    if isSentenceEnder (t.getD (s + 1) 'x') then skipWs t (s + 2)
    else backScanLoop t s

/-- The forward half: walk right from `e`; on the first terminator at or after
`e`, return `skipWs` of the following position; otherwise stop at the end.
The fuel argument (`t.length - e` at the top level) only bounds the walk so
the kernel can evaluate it; it never runs out before the position check. -/
def fwdScanAux (t : List Char) : Nat → Nat → Nat
  | 0, e => e
  | fuel + 1, e =>
    if h : e < t.length then
      if isSentenceEnder (t.get ⟨e, h⟩) then skipWs t (e + 1)
      else fwdScanAux t fuel (e + 1)
    else e

def fwdScanLoop (t : List Char) (e : Nat) : Nat := fwdScanAux t (t.length - e) e

/-- `_expand_citation_span_to_sentence(full_text, start, end)`. -/
def expandCitationSpanToSentence (t : List Char) (s e : Nat) : Nat × Nat :=
  (backScanLoop t s, fwdScanLoop t e)

/-! ### The `Citation` record and source-object models

The `Citation` pydantic model and the search-result classes live outside this
file's repository slice (`..api.models.retrieval.responses` and
`..abstractions.search`); they are plain data carriers.  Modelled from the
spec: the serializable citation shape of spec section 6 with all optional
fields, and per-category read-only source fields (chunk: id, document_id,
owner_id, collection_ids, score, text, metadata; graph: score, metadata,
optional structured content; web: link, title, snippet, position; contextDoc:
document dict, ordered chunk texts).  Scores are floats in the source; they
are only ever copied, never computed with, so an opaque `Int` stands in.
Metadata maps are association lists with a small value universe. -/

/-- A metadata value. -/
inductive MVal where
  | str (s : String)
  | num (n : Int)
  | strList (l : List String)
  | dict (l : List (String × String))
deriving DecidableEq, Repr

/-- Modelled from the spec: the serializable `Citation` record.  Fields not
set at construction default to `none`/empty, matching optional pydantic
fields; `index` is the final reference number and `rawIndex` the original
bracket number. -/
structure Citation where
  index : Nat := 0
  rawIndex : Option Nat := none
  startIndex : Option Nat := none
  endIndex : Option Nat := none
  snippetStartIndex : Option Nat := none
  snippetEndIndex : Option Nat := none
  sourceType : Option String := none
  id : Option String := none
  document_id : Option String := none
  doc_id : Option String := none
  owner_id : Option String := none
  collection_ids : List String := []
  score : Option Int := none
  text : Option String := none
  metadata : List (String × MVal) := []
deriving DecidableEq, Repr

/-- `extract_citations(text)`: one `Citation` per regex match, carrying the
bracket number in `index` and the match/snippet spans. -/
def extractCitations (t : List Char) : List Citation :=
  (scanAux t 0).map fun m =>
    let sp := expandCitationSpanToSentence t m.start m.stop
    { index := digitsToNat m.ds
      startIndex := some m.start
      endIndex := some m.stop
      snippetStartIndex := some sp.1
      snippetEndIndex := some sp.2 }

/-! ### Rewriting bracket tokens

`rwText f` replaces every bracket token `[v]` with `[f v]`, walking the text
left to right.  It is the common normal form of the two relabelling methods
in the source: the right-to-left splice loop of `reassign_citations_in_order`
(proved equal below) and `pattern.sub` in `finalize_citations_with_collector`
(whose leftmost, non-overlapping replacement is exactly this walk). -/

def rwTextAux (f : Nat → Nat) : Nat → List Char → List Char
  | _, [] => []
  | 0, c :: cs => c :: cs
  | fuel + 1, c :: cs =>
    match tokenAt (c :: cs) with
    | some ds =>
      '[' :: (natToChars (f (digitsToNat ds)) ++ ']' ::
        rwTextAux f fuel (cs.drop (ds.length + 1)))
    | none => c :: rwTextAux f fuel cs

/-- The rewrite itself; the fuel (`l.length`) never runs out, it only makes
the recursion structural so the kernel can evaluate it. -/
def rwText (f : Nat → Nat) (l : List Char) : List Char := rwTextAux f l.length l

/-! ### The right-to-left splice loop of `reassign_citations_in_order` -/

/-- The labelled occurrence dicts built in step 2 of the source. -/
structure LabeledCitation where
  rawIndex : Nat
  newIndex : Nat
  startIndex : Nat
  endIndex : Nat
deriving DecidableEq, Repr

/-- `result_chars[s:e] = list(replacement)`: python slice assignment. -/
def spliceOne (l : List Char) (s e : Nat) (r : List Char) : List Char :=
  l.take s ++ r ++ l.drop e

/-- The replacement token `f"[{new_ref}]"` for a labelled occurrence. -/
def replacementTok (it : LabeledCitation) : List Char :=
  '[' :: (natToChars it.newIndex ++ [']'])

/-- The splice loop, iterating over items in the given (descending) order. -/
def spliceDesc (t : List Char) (items : List LabeledCitation) : List Char :=
  items.foldl (fun acc it => spliceOne acc it.startIndex it.endIndex (replacementTok it)) t

/-- Equivalent right fold over the ascending item list. -/
def spliceAsc (items : List LabeledCitation) (t : List Char) : List Char :=
  items.foldr (fun it acc => spliceOne acc it.startIndex it.endIndex (replacementTok it)) t

/-- Shift a labelled item right by `k` text positions. -/
def shiftItem (k : Nat) (it : LabeledCitation) : LabeledCitation :=
  { it with startIndex := it.startIndex + k, endIndex := it.endIndex + k }

/-- The labelled items that the splice loop receives, when the labels were
attached to the scanner's matches: raw value, relabelled value, match span. -/
def itemsOfMatches (f : Nat → Nat) (ms : List BMatch) : List LabeledCitation :=
  ms.map fun m =>
    { rawIndex := digitsToNat m.ds
      newIndex := f (digitsToNat m.ds)
      startIndex := m.start
      endIndex := m.stop }

/-! ### Python `sorted` as a stable insertion sort

`sorted(xs, key=k)` is a stable sort by key; Timsort and stable insertion
sort compute the same function.  `sorted(xs, key=k, reverse=True)` is stable
with the comparison reversed (equal keys keep their original order). -/

/-- `sorted(citations, key=lambda c: c.startIndex)`.  The key is always set
on the citations this is applied to; `getD` gives the unset default. -/
def pySortCitationsByStart (cs : List Citation) : List Citation :=
  List.insertionSort (fun a b => a.startIndex.getD 0 ≤ b.startIndex.getD 0) cs

/-- `sorted(labeled, key=lambda x: x["startIndex"])`. -/
def pySortItemsByStart (its : List LabeledCitation) : List LabeledCitation :=
  List.insertionSort (fun a b => a.startIndex ≤ b.startIndex) its

/-- `sorted(labeled, key=lambda x: x["startIndex"], reverse=True)`. -/
def pySortItemsByStartDesc (its : List LabeledCitation) : List LabeledCitation :=
  List.insertionSort (fun a b => b.startIndex ≤ a.startIndex) its

/-! ### First-appearance renumbering: the `old_to_new` dict -/

/-- Index of the first occurrence of `v` in `l` (length of `l` if absent). -/
def idxOf : List Nat → Nat → Nat
  | [], _ => 0
  | a :: as, v => if a = v then 0 else idxOf as v + 1

/-- One step of first-occurrence accumulation. -/
def foStep (acc : List Nat) (v : Nat) : List Nat :=
  if v ∈ acc then acc else acc ++ [v]

def foAux : List Nat → List Nat → List Nat
  | [], acc => acc
  | v :: vs, acc => foAux vs (foStep acc v)

/-- The distinct values of `vs` in order of first appearance. -/
def firstOccs (vs : List Nat) : List Nat := foAux vs []

/-- Association-list lookup, modelling a Python dict with distinct keys. -/
def lookupA : List (Nat × Nat) → Nat → Option Nat
  | [], _ => none
  | p :: ps, k => if p.1 = k then some p.2 else lookupA ps k

/-- Pair each value of `l` with its 1-based position, starting at `i`. -/
def enumFrom (i : Nat) : List Nat → List (Nat × Nat)
  | [] => []
  | v :: vs => (v, i) :: enumFrom (i + 1) vs

/-- The `old_to_new` dict after processing values `pv`: each distinct value in
first-appearance order, mapped to `1, 2, 3, …`.  The running counter
`next_new_index` of the source always equals `len(old_to_new) + 1`. -/
def mapFor (pv : List Nat) : List (Nat × Nat) := enumFrom 1 (firstOccs pv)

/-- `if old_ref not in old_to_new: old_to_new[old_ref] = next_new_index`:
extend the dict at a fresh raw value with the next index (`next_new_index`
always equals `len(old_to_new) + 1`). -/
def updMap (m : List (Nat × Nat)) (v : Nat) : List (Nat × Nat) :=
  if (lookupA m v).isSome then m else m ++ [(v, m.length + 1)]

/-- The label-assignment loop of `reassign_citations_in_order` step 2: walk
the sorted citations, extend `old_to_new` at each fresh raw value, and emit a
labelled occurrence for every citation.  Returns the labels and final dict. -/
def assignLabels : List Citation → List (Nat × Nat) → List LabeledCitation × List (Nat × Nat)
  | [], m => ([], m)
  | c :: cs, m =>
    ({ rawIndex := c.index
       newIndex := (lookupA (updMap m c.index) c.index).getD 0
       startIndex := c.startIndex.getD 0
       endIndex := c.endIndex.getD 0 } :: (assignLabels cs (updMap m c.index)).1,
     (assignLabels cs (updMap m c.index)).2)

/-! ### `reassign_citations_in_order` -/

/-- The bracket values of a text, in left-to-right order. -/
def scanVals (t : List Char) : List Nat := (scanDs t).map digitsToNat

/-- The final `old_to_new` mapping as a function: the 1-based rank of a
value's first appearance in the value sequence `vs`. -/
def faMap (vs : List Nat) (v : Nat) : Nat := idxOf (firstOccs vs) v + 1

/-- `reassign_citations_in_order(text, citations)`: sort by start position,
assign first-appearance labels, splice the replacements right to left,
re-extract, and zip the labels with the re-extracted spans. -/
def reassignCitationsInOrder (text : List Char) (cits : List Citation) :
    List Char × List Citation :=
  if cits = [] then (text, [])
  else
    let sortedCits := pySortCitationsByStart cits
    let labeled := (assignLabels sortedCits []).1
    let newText := spliceDesc text (pySortItemsByStartDesc labeled)
    let updatedExtracted := pySortCitationsByStart (extractCitations newText)
    let labeledAsc := pySortItemsByStart labeled
    (newText,
     (labeledAsc.zip updatedExtracted).map fun p =>
       { rawIndex := some p.1.rawIndex
         index := p.1.newIndex
         startIndex := p.2.startIndex
         endIndex := p.2.endIndex
         snippetStartIndex := p.2.snippetStartIndex
         snippetEndIndex := p.2.snippetEndIndex })

/-! ### Source-object models and the two mappers

The search-result classes live in `..abstractions.search`, outside this
repository slice.  Modelled from the spec (section 6): each category exposes
the listed read-only fields.  `as_dict`/`dict`/`to_dict` serializations used
by the stream renderer are opaque; each object carries its serialized form as
an uninterpreted string field `dictRepr`. -/

/-- Modelled from the spec: a chunk search result. -/
structure ChunkResult where
  id : String
  document_id : String
  owner_id : Option String
  collection_ids : List String
  score : Int
  text : String
  metadata : List (String × MVal)
  dictRepr : String
deriving DecidableEq, Repr

/-- Modelled from the spec: a graph item's structured content; `dump` is its
opaque `model_dump()` serialization. -/
structure GraphContent where
  dump : List (String × String)
deriving DecidableEq, Repr

/-- Modelled from the spec: a graph search result. -/
structure GraphResult where
  score : Int
  metadata : List (String × MVal)
  content : Option GraphContent
  dictRepr : String
deriving DecidableEq, Repr

/-- Modelled from the spec: a web search result. -/
structure WebResult where
  link : String
  title : String
  snippet : String
  position : Int
  dictRepr : String
deriving DecidableEq, Repr

/-- Modelled from the spec: a local context-document result. -/
structure ContextDocResult where
  document : List (String × String)
  chunks : List String
  dictRepr : String
deriving DecidableEq, Repr

/-- A retrieved source object of any category. -/
inductive SourceObj where
  | chunk (c : ChunkResult)
  | graph (g : GraphResult)
  | web (w : WebResult)
  | ctx (d : ContextDocResult)
deriving DecidableEq, Repr

/-- `AggregateSearchResult`: four optional ordered sequences.  An absent
(`None`) sequence and an empty one behave identically in the source (both
are falsy), so both are modelled as `[]`. -/
structure AggregateSearchResult where
  chunk_search_results : List ChunkResult := []
  graph_search_results : List GraphResult := []
  web_search_results : List WebResult := []
  context_document_results : List ContextDocResult := []
deriving DecidableEq, Repr

/-- The flattening step of `map_citations_to_sources`: chunk, then graph,
then web, then contextDoc, each tagged with its category string. -/
def flattenAgg (agg : AggregateSearchResult) : List (SourceObj × String) :=
  (agg.chunk_search_results.map fun c => (SourceObj.chunk c, "chunk")) ++
  (agg.graph_search_results.map fun g => (SourceObj.graph g, "graph")) ++
  (agg.web_search_results.map fun w => (SourceObj.web w, "web")) ++
  (agg.context_document_results.map fun d => (SourceObj.ctx d, "contextDoc"))

/-- Python dict assignment `m[k] = v`: overwrite in place or append. -/
def dictInsert (m : List (String × MVal)) (k : String) (v : MVal) :
    List (String × MVal) :=
  if (m.map Prod.fst).contains k then
    m.map fun p => if p.1 = k then (k, v) else p
  else m ++ [(k, v)]

/-- `str(source_obj.owner_id) if source_obj.owner_id else None`: Python
truthiness makes both `None` and the empty string fall to `None`. -/
def pyOwnerId (o : Option String) : Option String :=
  match o with
  | none => none
  | some s => if s = "" then none else some s

/-- The graph metadata after the optional `graphContent` insertion. -/
def graphMeta (g : GraphResult) : List (String × MVal) :=
  match g.content with
  | some gc => dictInsert g.metadata "graphContent" (MVal.dict gc.dump)
  | none => g.metadata

/-- The per-variant metadata population shared by the in-range branch of
`map_citations_to_sources`.  The category string is the one flattening
attached, which always matches the object's constructor there. -/
def populatePositional (src : SourceObj × String) (cit : Citation) : Citation :=
  match src with
  | (SourceObj.chunk c, st) =>
    { cit with
      sourceType := some st
      id := some c.id
      document_id := some c.document_id
      owner_id := pyOwnerId c.owner_id
      collection_ids := c.collection_ids
      score := some c.score
      text := some c.text
      metadata := c.metadata }
  | (SourceObj.graph g, st) =>
    { cit with
      sourceType := some st
      score := some g.score
      metadata := graphMeta g }
  | (SourceObj.web w, st) =>
    { cit with
      sourceType := some st
      metadata := [("link", MVal.str w.link), ("title", MVal.str w.title),
        ("position", MVal.num w.position)] }
  | (SourceObj.ctx d, st) =>
    { cit with
      sourceType := some st
      metadata := [("document", MVal.dict d.document),
        ("chunks", MVal.strList d.chunks)] }

/-- `map_citations_to_sources(citations, aggregated)`: position the citation's
1-based `index` into the flattened source list; out of range leaves the
citation untouched. -/
def mapCitationsToSources (cits : List Citation) (agg : AggregateSearchResult) :
    List Citation :=
  let flat := flattenAgg agg
  cits.map fun cit =>
    let idx0 : Int := (cit.index : Int) - 1
    if idx0 < 0 ∨ (flat.length : Int) ≤ idx0 then cit
    else
      match flat[cit.index - 1]? with
      | some src => populatePositional src cit
      | none => cit

/-! ### The Collector ledger and `map_citations_to_collector` -/

/-- One entry of `collector.get_all_results()`:
`(source_type, result_obj, aggregator_index)`. -/
abbrev LedgerEntry := String × SourceObj × Nat

/-- The `aggregator_map` dict built from the ledger (later entries with the
same aggregator index overwrite earlier ones), looked up at the citation's
`rawIndex`; a `None` raw index is not a key of the int-keyed dict. -/
def aggLookup (ledger : List LedgerEntry) (k : Option Nat) :
    Option (String × SourceObj) :=
  match k with
  | none => none
  | some n =>
    ledger.foldl (fun acc e => if e.2.2 = n then some (e.1, e.2.1) else acc) none

/-- The found-branch of `map_citations_to_collector`: branch on the ledger's
category string and read the per-variant fields.  A string that names a
category whose fields the object does not have raises `AttributeError` in the
source; that is the `none` result here.  An unrecognized string falls through
to the `else` branch, which empties the metadata. -/
def populateFromLedger (st : String) (obj : SourceObj) (cit : Citation) :
    Option Citation :=
  if st = "chunk" then
    match obj with
    | SourceObj.chunk c =>
      some { cit with
        sourceType := some st
        id := some c.id
        document_id := some c.document_id
        owner_id := pyOwnerId c.owner_id
        collection_ids := c.collection_ids
        score := some c.score
        text := some c.text
        metadata := c.metadata }
    | _ => none
  else if st = "graph" then
    match obj with
    | SourceObj.graph g =>
      some { cit with
        sourceType := some st
        score := some g.score
        metadata := graphMeta g }
    | _ => none
  else if st = "web" then
    match obj with
    | SourceObj.web w =>
      some { cit with
        sourceType := some st
        metadata := [("link", MVal.str w.link), ("title", MVal.str w.title),
          ("position", MVal.num w.position)] }
    | _ => none
  else if st = "contextDoc" then
    match obj with
    | SourceObj.ctx d =>
      some { cit with
        sourceType := some st
        metadata := [("document", MVal.dict d.document),
          ("chunks", MVal.strList d.chunks)] }
    | _ => none
  else
    some { cit with
      sourceType := some st
      metadata := [] }

/-- Processing of one citation by `map_citations_to_collector`. -/
def mapOneToCollector (ledger : List LedgerEntry) (cit : Citation) :
    Option Citation :=
  match aggLookup ledger cit.rawIndex with
  | some (st, obj) => populateFromLedger st obj cit
  | none => some { cit with sourceType := some "unknown" }

/-- Process a list in the exception monad: `none` anywhere aborts the loop
and discards the partial result, as a raised exception does. -/
def mapListOption (f : α → Option β) : List α → Option (List β)
  | [] => some []
  | a :: as =>
    match f a, mapListOption f as with
    | some b, some bs => some (b :: bs)
    | _, _ => none

/-- `map_citations_to_collector(citations, collector)`. -/
def mapCitationsToCollector (cits : List Citation) (ledger : List LedgerEntry) :
    Option (List Citation) :=
  mapListOption (mapOneToCollector ledger) cits

/-- A collector ledger holding exactly the flattened sources, with aggregator
indices assigned `i, i+1, …` in the flattening (category) order. -/
def ledgerOf : List (SourceObj × String) → Nat → List LedgerEntry
  | [], _ => []
  | (o, s) :: rest, i => (s, o, i) :: ledgerOf rest (i + 1)

/-- Modelled from the claim's words for C7: scan backward from the match
start to the nearest preceding sentence terminator — wherever it sits,
including position 0 — then skip the whitespace following it; only when no
terminator precedes the match does the snippet start at the text start. -/
def claimedSnippetStart (t : List Char) : Nat → Nat
  | 0 => if isSentenceEnder (t.getD 0 'x') then skipWs t 1 else 0
  | s + 1 =>
    if isSentenceEnder (t.getD (s + 1) 'x') then skipWs t (s + 2)
    else claimedSnippetStart t s

/-! ### `finalize_citations_with_collector` -/

/-- `sorted(...)` over distinct bracket values. -/
def sortNat (l : List Nat) : List Nat :=
  List.insertionSort (fun a b => a ≤ b) l

/-- `getattr(result_obj, "document_id", None)`: per the spec's field lists,
only chunk results carry `document_id`. -/
def attrDocumentId : SourceObj → Option String
  | SourceObj.chunk c => some c.document_id
  | _ => none

/-- `getattr(result_obj, "text", None)`: only chunk results carry `text`. -/
def attrText : SourceObj → Option String
  | SourceObj.chunk c => some c.text
  | _ => none

/-- `getattr(result_obj, "metadata", {})`: chunk and graph results carry a
metadata map; the other categories fall to the default. -/
def attrMetadata : SourceObj → List (String × MVal)
  | SourceObj.chunk c => c.metadata
  | SourceObj.graph g => g.metadata
  | _ => []

/-- Python `str(...)` on an optional string: `None` prints as `"None"`. -/
def pyStr : Option String → String
  | none => "None"
  | some s => s

/-- `finalize_citations_with_collector(raw_text, collector)`: scan brackets,
map each distinct bracket value to its rank in ascending sorted order, build
one citation per occurrence (offsets from the ORIGINAL text; aggregator item
found by scanning the ledger for the first entry with that index), then
relabel the text with `pattern.sub`. -/
def finalizeCitationsWithCollector (raw : List Char) (ledger : List LedgerEntry) :
    List Char × List Citation :=
  if raw = [] then (raw, [])
  else
    let ms := scanAux raw 0
    if ms = [] then (raw, [])
    else
      let uniqueSorted := sortNat (firstOccs (ms.map fun m => digitsToNat m.ds))
      let oldToNew := enumFrom 1 uniqueSorted
      let lookupNew := fun v => (lookupA oldToNew v).getD 0
      let cits := ms.map fun m =>
        let oldRef := digitsToNat m.ds
        match ledger.find? (fun en => en.2.2 = oldRef) with
        | some en =>
          { index := lookupNew oldRef
            rawIndex := some oldRef
            startIndex := some m.start
            endIndex := some m.stop
            sourceType := some en.1
            doc_id := some (pyStr (attrDocumentId en.2.1))
            text := attrText en.2.1
            metadata := attrMetadata en.2.1 }
        | none =>
          { index := lookupNew oldRef
            rawIndex := some oldRef
            startIndex := some m.start
            endIndex := some m.stop
            sourceType := some "unknown" }
      (rwText lookupNew raw, cits)

/-! ### `reorder_collector_to_match_final_brackets` -/

/-- `max((c.index for c in final_citations), default=0)`. -/
def maxCitIndex (cs : List Citation) : Nat :=
  cs.foldl (fun a c => max a c.index) 0

/-- Python truthiness of `cit.rawIndex` (`if not old_idx: continue`): falsy
when the attribute is `None` or the integer `0`. -/
def truthyRaw : Option Nat → Bool
  | none => false
  | some n => decide (n ≠ 0)

/-- The `for cit in final_citations` loop of
`reorder_collector_to_match_final_brackets`, with Python list indexing made
explicit: `new_list[new_idx - 1]` wraps once for a negative index and raises
`IndexError` (modelled as `none`) when still out of range. -/
def reorderLoop (oldList : List α) (maxIdx : Nat) :
    List Citation → List (Option α) → Option (List (Option α))
  | [], acc => some acc
  | c :: cs, acc =>
    if truthyRaw c.rawIndex = false then reorderLoop oldList maxIdx cs acc
    else
      let pos := c.rawIndex.getD 0 - 1
      if oldList.length ≤ pos then reorderLoop oldList maxIdx cs acc
      else
        let slot : Int := (c.index : Int) - 1
        let eff : Int := if slot < 0 then (maxIdx : Int) + slot else slot
        if 0 ≤ eff ∧ eff < (maxIdx : Int) then
          match acc[eff.toNat]? with
          | some none => reorderLoop oldList maxIdx cs (acc.set eff.toNat oldList[pos]?)
          | some (some _) => reorderLoop oldList maxIdx cs acc
          | none => none
        else none

/-- `reorder_collector_to_match_final_brackets(collector, final_citations)`:
build a `max_index`-slot table, place each citation's aggregator item at slot
`index - 1` (first writer wins), drop unfilled slots, and store the result as
the collector's new materialized order.  `none` models an uncaught
`IndexError`. -/
def reorderCollectorToMatchFinalBrackets (oldList : List α) (cits : List Citation) :
    Option (List α) :=
  (reorderLoop oldList (maxCitIndex cits) cits
      (List.replicate (maxCitIndex cits) none)).map fun nl => nl.filterMap id

/-- The first citation in the list that actually fills slot `i` (bracket
`i + 1`): truthy `rawIndex`, `index = i + 1`, and an in-range old position. -/
def fillerFor (oldLen : Nat) (cits : List Citation) (i : Nat) : Option Citation :=
  cits.find? fun c =>
    truthyRaw c.rawIndex && decide (c.index = i + 1) &&
      decide (c.rawIndex.getD 0 - 1 < oldLen)

/-- A two-entry ledger (aggregator indices 1 and 2) for the C8 counterexample
and witness. -/
def c8CexLedger : List LedgerEntry :=
  [("web", SourceObj.web { link := "l1", title := "t1", snippet := "s1", position := 1, dictRepr := "w1" }, 1),
   ("web", SourceObj.web { link := "l2", title := "t2", snippet := "s2", position := 2, dictRepr := "w2" }, 2)]

/-! ### `format_search_results_for_stream` -/

/-- `json.dumps(list_of_dicts, default=str)` with the default separators:
the item serializations joined by comma-space, inside square brackets.  Each
item's dict serialization is its opaque `dictRepr`. -/
def jsonArrayDump (items : List String) : String :=
  "[" ++ String.intercalate ", " items ++ "]"

/-- `format_search_results_for_stream(results)`: for each truthy category in
the fixed order, append an opening marker tag, the JSON dump of the item
dicts, and the closing tag. -/
def formatSearchResultsForStream (r : AggregateSearchResult) : String :=
  (if r.chunk_search_results.isEmpty then "" else
    "<chunk_search>" ++
      jsonArrayDump (r.chunk_search_results.map ChunkResult.dictRepr) ++
      "</chunk_search>") ++
  (if r.graph_search_results.isEmpty then "" else
    "<graph_search>" ++
      jsonArrayDump (r.graph_search_results.map GraphResult.dictRepr) ++
      "</graph_search>") ++
  (if r.web_search_results.isEmpty then "" else
    "<web_search>" ++
      jsonArrayDump (r.web_search_results.map WebResult.dictRepr) ++
      "</web_search>") ++
  (if r.context_document_results.isEmpty then "" else
    "<content>" ++
      jsonArrayDump (r.context_document_results.map ContextDocResult.dictRepr) ++
      "</content>")

/-- A stream segment as the claim describes it: nothing for an empty
category, otherwise a start tag, the JSON array of the category's item
dictionaries, and a matching end tag. -/
def claimedSegment (tag : String) (items : List String) : String :=
  if items.isEmpty then ""
  else "<" ++ tag ++ ">" ++ jsonArrayDump items ++ ("</" ++ tag ++ ">")

/-! ## Theorems -/

theorem takeDigits_append_eq (l : List Char) :
    (takeDigits l).1 ++ (takeDigits l).2 = l := by
  induction l with
  | nil => rfl
  | cons c cs ih =>
    by_cases h : isDigitChar c
    · simp [takeDigits, h, ih]
    · simp [takeDigits, h]

theorem takeDigits_length (l : List Char) :
    (takeDigits l).1.length + (takeDigits l).2.length = l.length := by
  have h := takeDigits_append_eq l
  calc (takeDigits l).1.length + (takeDigits l).2.length
      = ((takeDigits l).1 ++ (takeDigits l).2).length := by simp
    _ = l.length := by rw [h]

theorem takeDigits_digits (l : List Char) :
    ∀ c ∈ (takeDigits l).1, isDigitChar c := by
  induction l with
  | nil => intro c hc; simp [takeDigits] at hc
  | cons c cs ih =>
    intro d hd
    by_cases h : isDigitChar c
    · simp [takeDigits, h] at hd
      rcases hd with h1 | h2
      · exact h1 ▸ h
      · exact ih d h2
    · simp [takeDigits, h] at hd

theorem takeDigits_rest_head (l : List Char) :
    ∀ c, (takeDigits l).2.head? = some c → ¬ isDigitChar c := by
  induction l with
  | nil => intro c hc; simp [takeDigits] at hc
  | cons a as ih =>
    intro c hc
    by_cases h : isDigitChar a
    · simp only [takeDigits, h, if_pos] at hc
      exact ih c hc
    · simp only [takeDigits, h, if_neg, Bool.false_eq_true, not_false_iff,
        List.head?_cons, Option.some.injEq] at hc
      intro hd
      exact absurd (hc ▸ hd) h

theorem takeDigits_of_digits_append (ds : List Char) (r : List Char)
    (hds : ∀ c ∈ ds, isDigitChar c)
    (hr : ∀ c, r.head? = some c → ¬ isDigitChar c) :
    takeDigits (ds ++ r) = (ds, r) := by
  induction ds with
  | nil =>
    cases r with
    | nil => rfl
    | cons c cs =>
      have : ¬ isDigitChar c := hr c rfl
      simp [takeDigits, this]
  | cons d ds ih =>
    have hd : isDigitChar d := hds d (List.mem_cons_self d ds)
    have := ih (fun c hc => hds c (List.mem_cons_of_mem d hc))
    simp [takeDigits, hd, this]

theorem natDigitsRevAux_eq_digits :
    ∀ fuel n, n ≤ fuel → natDigitsRevAux fuel n = Nat.digits 10 n := by
  intro fuel
  induction fuel with
  | zero =>
    intro n hn
    have hz : n = 0 := by omega
    subst hz
    simp [natDigitsRevAux]
  | succ fuel ih =>
    intro n hn
    by_cases hz : n = 0
    · subst hz
      simp [natDigitsRevAux]
    · have hdiv : n / 10 ≤ fuel := by
        have := Nat.div_lt_self (Nat.pos_of_ne_zero hz) (by norm_num : 1 < 10)
        omega
      rw [natDigitsRevAux, if_neg hz, ih (n / 10) hdiv,
        Nat.digits_def' (by norm_num : 1 < 10) (Nat.pos_of_ne_zero hz)]

theorem natToChars_eq (n : Nat) :
    natToChars n = if n = 0 then [digitChar 0]
      else ((Nat.digits 10 n).map digitChar).reverse := by
  rw [natToChars, natDigitsRevAux_eq_digits n n (Nat.le_refl n)]

theorem digitChar_toNat (d : Nat) (hd : d < 10) : (digitChar d).toNat = 48 + d := by
  interval_cases d <;> rfl

theorem isDigitChar_digitChar (d : Nat) (hd : d < 10) : isDigitChar (digitChar d) := by
  interval_cases d <;> rfl

theorem natToChars_ne_nil (n : Nat) : natToChars n ≠ [] := by
  rw [natToChars_eq]
  by_cases h : n = 0
  · simp [h]
  · simp only [h, if_neg, not_false_iff]
    intro hcon
    have : Nat.digits 10 n ≠ [] := Nat.digits_ne_nil_iff_ne_zero.mpr h
    simp only [List.reverse_eq_nil_iff, List.map_eq_nil_iff] at hcon
    exact this hcon

theorem natToChars_digits (n : Nat) : ∀ c ∈ natToChars n, isDigitChar c := by
  intro c hc
  rw [natToChars_eq] at hc
  by_cases h : n = 0
  · simp [h] at hc
    exact hc ▸ isDigitChar_digitChar 0 (by norm_num)
  · simp only [h, if_neg, not_false_iff, List.mem_reverse,
      List.mem_map] at hc
    obtain ⟨d, hd, hdc⟩ := hc
    have hlt : d < 10 := Nat.digits_lt_base (by norm_num) hd
    exact hdc ▸ isDigitChar_digitChar d hlt

theorem digitsToNat_append_digit (ds : List Char) (c : Char) :
    digitsToNat (ds ++ [c]) = 10 * digitsToNat ds + (c.toNat - 48) := by
  simp [digitsToNat, List.foldl_append]

theorem digitsToNat_natToChars (n : Nat) : digitsToNat (natToChars n) = n := by
  rw [natToChars_eq]
  by_cases h : n = 0
  · simp [h, digitsToNat, digitChar]
  · simp only [h, if_neg, not_false_iff]
    -- Prove a general statement about reversed digit lists by induction on n.
    suffices H : ∀ m, digitsToNat (((Nat.digits 10 m).map digitChar).reverse) = m by
      exact H n
    intro m
    induction m using Nat.strong_induction_on with
    | _ m ih =>
      by_cases hm : m = 0
      · simp [hm, digitsToNat]
      · rw [Nat.digits_def' (by norm_num : 1 < 10) (Nat.pos_of_ne_zero hm)]
        simp only [List.map_cons, List.reverse_cons]
        rw [digitsToNat_append_digit]
        have hlt : m / 10 < m := Nat.div_lt_self (Nat.pos_of_ne_zero hm) (by norm_num)
        rw [ih (m / 10) hlt]
        have hmod : m % 10 < 10 := Nat.mod_lt m (by norm_num)
        rw [digitChar_toNat (m % 10) hmod]
        simp only [Nat.add_sub_cancel_left]
        omega

theorem tokenAt_eq_some {l : List Char} {ds : List Char} (h : tokenAt l = some ds) :
    ds ≠ [] ∧ (∀ c ∈ ds, isDigitChar c) ∧ ∃ rest, l = '[' :: (ds ++ ']' :: rest) := by
  match l with
  | [] => simp [tokenAt] at h
  | c :: cs =>
    simp only [tokenAt] at h
    by_cases hc : c = '['
    · rw [if_pos hc] at h
      by_cases hne : (takeDigits cs).1 = []
      · rw [if_pos hne] at h; exact absurd h (by simp)
      · rw [if_neg hne] at h
        by_cases hhd : (takeDigits cs).2.head? = some ']'
        · rw [if_pos hhd] at h
          have hds : ds = (takeDigits cs).1 := (Option.some.injEq _ _ ▸ h).symm
          subst hds hc
          refine ⟨hne, takeDigits_digits cs, ?_⟩
          rcases hr : (takeDigits cs).2 with _ | ⟨a, rest⟩
          · rw [hr] at hhd; simp at hhd
          · rw [hr] at hhd
            simp only [List.head?_cons, Option.some.injEq] at hhd
            subst hhd
            refine ⟨rest, ?_⟩
            have := takeDigits_append_eq cs
            rw [hr] at this
            simp only [List.cons.injEq, true_and]
            exact this.symm
        · rw [if_neg hhd] at h; exact absurd h (by simp)
    · rw [if_neg hc] at h; exact absurd h (by simp)

theorem tokenAt_token {ds : List Char} (rest : List Char) (hne : ds ≠ [])
    (hds : ∀ c ∈ ds, isDigitChar c) :
    tokenAt ('[' :: (ds ++ ']' :: rest)) = some ds := by
  have htd : takeDigits (ds ++ ']' :: rest) = (ds, ']' :: rest) := by
    apply takeDigits_of_digits_append ds (']' :: rest) hds
    intro c hc
    simp only [List.head?_cons, Option.some.injEq] at hc
    subst hc
    decide
  simp [tokenAt, htd, hne]

theorem tokenAt_none_of_head_ne {c : Char} (cs : List Char) (hc : c ≠ '[') :
    tokenAt (c :: cs) = none := by
  simp [tokenAt, hc]

/-- A digit cannot open a token. -/
theorem tokenAt_none_of_digit {c : Char} (cs : List Char) (hc : isDigitChar c) :
    tokenAt (c :: cs) = none := by
  apply tokenAt_none_of_head_ne
  intro hcon
  subst hcon
  exact absurd hc (by decide)

theorem scanDs_eq_map (l : List Char) : ∀ pos, (scanAux l pos).map BMatch.ds = scanDs l := by
  induction l with
  | nil => intro pos; rfl
  | cons c cs ih =>
    intro pos
    simp only [scanAux, scanDs, List.map_append, ih (pos + 1)]
    cases tokenAt (c :: cs) <;> simp

theorem scanAux_length_eq (l : List Char) (pos pos' : Nat) :
    (scanAux l pos).length = (scanAux l pos').length := by
  have h1 := scanDs_eq_map l pos
  have h2 := scanDs_eq_map l pos'
  have : ((scanAux l pos).map BMatch.ds).length = ((scanAux l pos').map BMatch.ds).length := by
    rw [h1, h2]
  simpa using this

theorem scanAux_start_ge (l : List Char) (pos : Nat) :
    ∀ m ∈ scanAux l pos, pos ≤ m.start ∧ m.stop = m.start + m.ds.length + 2 := by
  induction l generalizing pos with
  | nil => intro m hm; simp [scanAux] at hm
  | cons c cs ih =>
    intro m hm
    simp only [scanAux, List.mem_append] at hm
    rcases hm with hm | hm
    · cases htok : tokenAt (c :: cs) with
      | none => rw [htok] at hm; simp at hm
      | some ds =>
        rw [htok] at hm
        simp only [List.mem_singleton] at hm
        subst hm
        exact ⟨Nat.le_refl _, rfl⟩
    · have := ih (pos + 1) m hm
      exact ⟨Nat.le_of_succ_le this.1, this.2⟩

theorem scanAux_start_strict (l : List Char) (pos : Nat) :
    (scanAux l pos).Pairwise (fun a b => a.start < b.start) := by
  induction l generalizing pos with
  | nil => simp [scanAux]
  | cons c cs ih =>
    simp only [scanAux]
    rw [List.pairwise_append]
    refine ⟨?_, ih (pos + 1), ?_⟩
    · cases tokenAt (c :: cs) <;> simp
    · intro a ha b hb
      cases htok : tokenAt (c :: cs) with
      | none => rw [htok] at ha; simp at ha
      | some ds =>
        rw [htok] at ha
        simp only [List.mem_singleton] at ha
        subst ha
        have := (scanAux_start_ge cs (pos + 1) b hb).1
        simpa using Nat.lt_of_lt_of_le (Nat.lt_succ_self pos) this

/-- The text between a match's span is exactly the bracket token. -/
theorem scanAux_slice (l : List Char) (pos : Nat) :
    ∀ m ∈ scanAux l pos,
      (l.drop (m.start - pos)).take (m.ds.length + 2) = '[' :: (m.ds ++ [']']) ∧
      m.ds ≠ [] ∧ (∀ c ∈ m.ds, isDigitChar c) ∧ m.stop ≤ pos + l.length := by
  induction l generalizing pos with
  | nil => intro m hm; simp [scanAux] at hm
  | cons c cs ih =>
    intro m hm
    simp only [scanAux, List.mem_append] at hm
    rcases hm with hm | hm
    · cases htok : tokenAt (c :: cs) with
      | none => rw [htok] at hm; simp at hm
      | some ds =>
        rw [htok] at hm
        simp only [List.mem_singleton] at hm
        subst hm
        obtain ⟨hne, hdig, rest, hshape⟩ := tokenAt_eq_some htok
        simp only [Nat.sub_self, List.drop_zero]
        refine ⟨?_, hne, hdig, ?_⟩
        · rw [hshape]
          have hlen : ds.length + 2 = ('[' :: (ds ++ ']' :: rest)).length - rest.length := by
            simp; omega
          rw [show ('[' :: (ds ++ ']' :: rest)) = ('[' :: (ds ++ [']'])) ++ rest by simp]
          rw [List.take_append_of_le_length (by simp)]
          simp
        · have : (c :: cs).length = ds.length + 2 + rest.length := by
            rw [hshape]; simp; omega
          simp only [this]
          omega
    · have hge := (scanAux_start_ge cs (pos + 1) m hm).1
      have := ih (pos + 1) m hm
      have hdropeq : (c :: cs).drop (m.start - pos) = cs.drop (m.start - (pos + 1)) := by
        have h1 : m.start - pos = (m.start - (pos + 1)) + 1 := by omega
        rw [h1]
        rfl
      rw [hdropeq]
      refine ⟨this.1, this.2.1, this.2.2.1, ?_⟩
      have := this.2.2.2
      simp only [List.length_cons]
      omega

theorem rwTextAux_fuel (f : Nat → Nat) :
    ∀ fuel fuel' (l : List Char), l.length ≤ fuel → l.length ≤ fuel' →
      rwTextAux f fuel l = rwTextAux f fuel' l := by
  intro fuel
  induction fuel with
  | zero =>
    intro fuel' l hl _
    have hnil : l = [] := List.length_eq_zero.mp (Nat.le_zero.mp hl)
    subst hnil
    cases fuel' <;> rfl
  | succ n ih =>
    intro fuel' l hl hl'
    match l with
    | [] => cases fuel' <;> rfl
    | c :: cs =>
      match fuel' with
      | 0 => simp at hl'
      | m + 1 =>
        rw [rwTextAux, rwTextAux]
        cases htok : tokenAt (c :: cs) with
        | none =>
          have h1 : cs.length ≤ n := by simp at hl; omega
          have h2 : cs.length ≤ m := by simp at hl'; omega
          dsimp only
          rw [ih m cs h1 h2]
        | some ds =>
          have h1 : (cs.drop (ds.length + 1)).length ≤ n := by
            simp only [List.length_drop]
            simp at hl
            omega
          have h2 : (cs.drop (ds.length + 1)).length ≤ m := by
            simp only [List.length_drop]
            simp at hl'
            omega
          dsimp only
          rw [ih m _ h1 h2]

theorem rwText_nomatch (f : Nat → Nat) {c : Char} {cs : List Char}
    (h : tokenAt (c :: cs) = none) : rwText f (c :: cs) = c :: rwText f cs := by
  rw [rwText, rwText, List.length_cons, rwTextAux, h]

theorem rwText_match (f : Nat → Nat) {c : Char} {cs : List Char} {ds : List Char}
    (h : tokenAt (c :: cs) = some ds) :
    rwText f (c :: cs) =
      '[' :: (natToChars (f (digitsToNat ds)) ++ ']' ::
        rwText f (cs.drop (ds.length + 1))) := by
  rw [rwText, rwText, List.length_cons, rwTextAux, h]
  dsimp only
  rw [rwTextAux_fuel f cs.length (cs.drop (ds.length + 1)).length
    (cs.drop (ds.length + 1)) (by simp) (Nat.le_refl _)]

theorem rwText_head? (f : Nat → Nat) (l : List Char) :
    (rwText f l).head? = l.head? := by
  match l with
  | [] => rfl
  | c :: cs =>
    cases htok : tokenAt (c :: cs) with
    | none => rw [rwText_nomatch f htok]; rfl
    | some ds =>
      rw [rwText_match f htok]
      obtain ⟨_, _, rest, hshape⟩ := tokenAt_eq_some htok
      have : c = '[' := by
        have := congrArg List.head? hshape
        simpa using this
      rw [this]
      rfl

theorem rwText_digits_append (f : Nat → Nat) (ds : List Char) (r : List Char)
    (hds : ∀ c ∈ ds, isDigitChar c) : rwText f (ds ++ r) = ds ++ rwText f r := by
  induction ds with
  | nil => rfl
  | cons d ds ih =>
    have hd : isDigitChar d := hds d (List.mem_cons_self d ds)
    have hnone : tokenAt (d :: (ds ++ r)) = none := tokenAt_none_of_digit _ hd
    rw [List.cons_append, rwText_nomatch f hnone,
      ih (fun c hc => hds c (List.mem_cons_of_mem d hc))]
    simp

theorem takeDigits_rwText (f : Nat → Nat) (l : List Char) :
    takeDigits (rwText f l) = ((takeDigits l).1, rwText f (takeDigits l).2) := by
  have hsplit := takeDigits_append_eq l
  have hds := takeDigits_digits l
  have hhd := takeDigits_rest_head l
  calc takeDigits (rwText f l)
      = takeDigits (rwText f ((takeDigits l).1 ++ (takeDigits l).2)) := by rw [hsplit]
    _ = takeDigits ((takeDigits l).1 ++ rwText f (takeDigits l).2) := by
        rw [rwText_digits_append f _ _ hds]
    _ = ((takeDigits l).1, rwText f (takeDigits l).2) := by
        apply takeDigits_of_digits_append _ _ hds
        intro c hc
        rw [rwText_head?] at hc
        exact hhd c hc

theorem tokenAt_rwText_none (f : Nat → Nat) {c : Char} {cs : List Char}
    (h : tokenAt (c :: cs) = none) : tokenAt (c :: rwText f cs) = none := by
  by_cases hc : c = '['
  · subst hc
    simp only [tokenAt] at h ⊢
    rw [takeDigits_rwText f cs]
    by_cases hne : (takeDigits cs).1 = []
    · simp [hne]
    · simp only [if_pos rfl, hne, if_neg, not_false_iff] at h ⊢
      rw [rwText_head?]
      by_cases hhd : (takeDigits cs).2.head? = some ']'
      · rw [if_pos hhd] at h; exact absurd h (by simp)
      · rw [if_neg hhd]; simp
  · exact tokenAt_none_of_head_ne _ hc

theorem scanDs_cons_none {c : Char} {cs : List Char} (h : tokenAt (c :: cs) = none) :
    scanDs (c :: cs) = scanDs cs := by
  rw [scanDs, h]
  rfl

theorem scanDs_cons_some {c : Char} {cs : List Char} {ds : List Char}
    (h : tokenAt (c :: cs) = some ds) : scanDs (c :: cs) = ds :: scanDs cs := by
  rw [scanDs, h]
  rfl

theorem scanDs_digits_append (ds : List Char) (r : List Char)
    (hds : ∀ c ∈ ds, isDigitChar c) : scanDs (ds ++ r) = scanDs r := by
  induction ds with
  | nil => rfl
  | cons d ds ih =>
    have hd : isDigitChar d := hds d (List.mem_cons_self d ds)
    rw [List.cons_append, scanDs_cons_none (tokenAt_none_of_digit _ hd),
      ih (fun c hc => hds c (List.mem_cons_of_mem d hc))]

/-- Scanning a rewritten text finds the same matches, with each digit group
replaced by the decimal rendering of the mapped value. -/
theorem scanDs_rwText (f : Nat → Nat) (l : List Char) :
    scanDs (rwText f l) = (scanDs l).map fun ds => natToChars (f (digitsToNat ds)) := by
  suffices H : ∀ n (l : List Char), l.length ≤ n →
      scanDs (rwText f l) = (scanDs l).map fun ds => natToChars (f (digitsToNat ds)) by
    exact H l.length l (Nat.le_refl _)
  intro n
  induction n with
  | zero =>
    intro l hl
    have hnil : l = [] := List.length_eq_zero.mp (Nat.le_zero.mp hl)
    subst hnil
    rfl
  | succ n ih =>
    intro l hl
    match l with
    | [] => rfl
    | c :: cs =>
      cases htok : tokenAt (c :: cs) with
      | none =>
        rw [rwText_nomatch f htok, scanDs_cons_none (tokenAt_rwText_none f htok),
          scanDs_cons_none htok]
        exact ih cs (by simp at hl; omega)
      | some ds =>
        obtain ⟨hne, hdig, rest, hshape⟩ := tokenAt_eq_some htok
        have hcs : cs = ds ++ ']' :: rest := by
          have := congrArg List.tail hshape
          simpa using this
        have hdrop : cs.drop (ds.length + 1) = rest := by
          rw [hcs, show ds ++ ']' :: rest = (ds ++ [']']) ++ rest by simp,
            show ds.length + 1 = (ds ++ [']']).length by simp]
          exact List.drop_left _ _
        have hrestlen : rest.length ≤ n := by
          have : (c :: cs).length = ds.length + 2 + rest.length := by
            rw [hcs]; simp; omega
          simp only [this] at hl
          omega
        have hN := natToChars_digits (f (digitsToNat ds))
        have hNne := natToChars_ne_nil (f (digitsToNat ds))
        rw [rwText_match f htok, hdrop,
          scanDs_cons_some (tokenAt_token (rwText f rest) hNne hN),
          scanDs_digits_append _ _ hN,
          scanDs_cons_none (tokenAt_none_of_head_ne (rwText f rest) (by decide)),
          ih rest hrestlen,
          scanDs_cons_some htok, hcs,
          scanDs_digits_append _ _ hdig,
          scanDs_cons_none (tokenAt_none_of_head_ne rest (by decide))]
        rfl

theorem scanDs_rwText_length (f : Nat → Nat) (l : List Char) :
    (scanDs (rwText f l)).length = (scanDs l).length := by
  rw [scanDs_rwText]; simp

/-- Rewriting only looks at `f` on the values occurring in the text. -/
theorem rwText_congr (f g : Nat → Nat) (l : List Char) :
    (∀ ds ∈ scanDs l, f (digitsToNat ds) = g (digitsToNat ds)) →
    rwText f l = rwText g l := by
  suffices H : ∀ n (l : List Char), l.length ≤ n →
      (∀ ds ∈ scanDs l, f (digitsToNat ds) = g (digitsToNat ds)) →
      rwText f l = rwText g l by
    exact H l.length l (Nat.le_refl _)
  intro n
  induction n with
  | zero =>
    intro l hl _
    have hnil : l = [] := List.length_eq_zero.mp (Nat.le_zero.mp hl)
    subst hnil
    rfl
  | succ n ih =>
    intro l hl hvals
    match l with
    | [] => rfl
    | c :: cs =>
      cases htok : tokenAt (c :: cs) with
      | none =>
        rw [rwText_nomatch f htok, rwText_nomatch g htok,
          ih cs (by simp at hl; omega) ?_]
        intro ds hds
        apply hvals
        rw [scanDs_cons_none htok]
        exact hds
      | some ds =>
        obtain ⟨hne, hdig, rest, hshape⟩ := tokenAt_eq_some htok
        have hcs : cs = ds ++ ']' :: rest := by
          have := congrArg List.tail hshape
          simpa using this
        have hdrop : cs.drop (ds.length + 1) = rest := by
          rw [hcs, show ds ++ ']' :: rest = (ds ++ [']']) ++ rest by simp,
            show ds.length + 1 = (ds ++ [']']).length by simp]
          exact List.drop_left _ _
        have hrestlen : rest.length ≤ n := by
          have : (c :: cs).length = ds.length + 2 + rest.length := by
            rw [hcs]; simp; omega
          simp only [this] at hl
          omega
        have hsub : ∀ d ∈ scanDs rest, d ∈ scanDs (c :: cs) := by
          intro d hd
          rw [scanDs_cons_some htok, hcs, scanDs_digits_append _ _ hdig,
            scanDs_cons_none (tokenAt_none_of_head_ne rest (by decide))]
          exact List.mem_cons_of_mem _ hd
        rw [rwText_match f htok, rwText_match g htok, hdrop,
          hvals ds (by rw [scanDs_cons_some htok]; exact List.mem_cons_self _ _),
          ih rest hrestlen (fun d hd => hvals d (hsub d hd))]

/-- Two rewrites compose. -/
theorem rwText_comp (f g : Nat → Nat) (l : List Char) :
    rwText f (rwText g l) = rwText (fun v => f (g v)) l := by
  suffices H : ∀ n (l : List Char), l.length ≤ n →
      rwText f (rwText g l) = rwText (fun v => f (g v)) l by
    exact H l.length l (Nat.le_refl _)
  intro n
  induction n with
  | zero =>
    intro l hl
    have hnil : l = [] := List.length_eq_zero.mp (Nat.le_zero.mp hl)
    subst hnil
    rfl
  | succ n ih =>
    intro l hl
    match l with
    | [] => rfl
    | c :: cs =>
      cases htok : tokenAt (c :: cs) with
      | none =>
        rw [rwText_nomatch g htok, rwText_nomatch f (tokenAt_rwText_none g htok),
          rwText_nomatch (fun v => f (g v)) htok, ih cs (by simp at hl; omega)]
      | some ds =>
        obtain ⟨hne, hdig, rest, hshape⟩ := tokenAt_eq_some htok
        have hcs : cs = ds ++ ']' :: rest := by
          have := congrArg List.tail hshape
          simpa using this
        have hdrop : cs.drop (ds.length + 1) = rest := by
          rw [hcs, show ds ++ ']' :: rest = (ds ++ [']']) ++ rest by simp,
            show ds.length + 1 = (ds ++ [']']).length by simp]
          exact List.drop_left _ _
        have hrestlen : rest.length ≤ n := by
          have : (c :: cs).length = ds.length + 2 + rest.length := by
            rw [hcs]; simp; omega
          simp only [this] at hl
          omega
        have hN := natToChars_digits (g (digitsToNat ds))
        have hNne := natToChars_ne_nil (g (digitsToNat ds))
        rw [rwText_match g htok, hdrop,
          rwText_match f (tokenAt_token (rwText g rest) hNne hN),
          rwText_match (fun v => f (g v)) htok, hdrop,
          digitsToNat_natToChars]
        have hdrop2 :
            (natToChars (g (digitsToNat ds)) ++ ']' :: rwText g rest).drop
              ((natToChars (g (digitsToNat ds))).length + 1) = rwText g rest := by
          rw [show natToChars (g (digitsToNat ds)) ++ ']' :: rwText g rest =
                (natToChars (g (digitsToNat ds)) ++ [']']) ++ rwText g rest by simp,
            show (natToChars (g (digitsToNat ds))).length + 1 =
                (natToChars (g (digitsToNat ds)) ++ [']']).length by simp]
          exact List.drop_left _ _
        rw [hdrop2, ih rest hrestlen]

theorem spliceDesc_reverse (t : List Char) (items : List LabeledCitation) :
    spliceDesc t items.reverse = spliceAsc items t := by
  rw [spliceDesc, spliceAsc, List.foldl_reverse]

theorem spliceAsc_cons (it : LabeledCitation) (its : List LabeledCitation) (t : List Char) :
    spliceAsc (it :: its) t =
      spliceOne (spliceAsc its t) it.startIndex it.endIndex (replacementTok it) := rfl

theorem spliceOne_cons (c : Char) (l : List Char) (s e : Nat) (r : List Char) :
    spliceOne (c :: l) (s + 1) (e + 1) r = c :: spliceOne l s e r := by
  simp [spliceOne]

theorem spliceOne_append (p : List Char) (l : List Char) (s e : Nat) (r : List Char) :
    spliceOne (p ++ l) (p.length + s) (p.length + e) r = p ++ spliceOne l s e r := by
  induction p with
  | nil => simp
  | cons a p ih =>
    have h1 : (a :: p).length + s = (p.length + s) + 1 := by simp; omega
    have h2 : (a :: p).length + e = (p.length + e) + 1 := by simp; omega
    rw [List.cons_append, h1, h2, spliceOne_cons, ih, List.cons_append]

theorem spliceAsc_shift (p : List Char) (items : List LabeledCitation) (t : List Char) :
    spliceAsc (items.map (shiftItem p.length)) (p ++ t) = p ++ spliceAsc items t := by
  induction items with
  | nil => rfl
  | cons it its ih =>
    simp only [List.map_cons, spliceAsc, List.foldr_cons]
    have : (shiftItem p.length it).startIndex = p.length + it.startIndex := by
      simp [shiftItem]; omega
    rw [this]
    have : (shiftItem p.length it).endIndex = p.length + it.endIndex := by
      simp [shiftItem]; omega
    rw [this]
    have hrep : replacementTok (shiftItem p.length it) = replacementTok it := by
      simp [replacementTok, shiftItem]
    rw [hrep]
    have := ih
    simp only [spliceAsc] at this
    rw [this, spliceOne_append]

/-- Shift invariance of the scanner. -/
theorem scanAux_shift (l : List Char) (pos : Nat) :
    scanAux l pos = (scanAux l 0).map fun m =>
      { m with start := m.start + pos, stop := m.stop + pos } := by
  induction l generalizing pos with
  | nil => simp [scanAux]
  | cons c cs ih =>
    rw [scanAux, scanAux]
    rw [ih (pos + 1), ih 1, List.map_append, List.map_map]
    congr 1
    · cases tokenAt (c :: cs) with
      | none => simp
      | some ds => simp; omega
    · apply List.map_congr_left
      intro m _
      simp
      omega

theorem scanAux_cons_none {c : Char} {cs : List Char} (h : tokenAt (c :: cs) = none)
    (pos : Nat) : scanAux (c :: cs) pos = scanAux cs (pos + 1) := by
  rw [scanAux, h]
  rfl

theorem scanAux_cons_some {c : Char} {cs : List Char} {ds : List Char}
    (h : tokenAt (c :: cs) = some ds) (pos : Nat) :
    scanAux (c :: cs) pos =
      { ds := ds, start := pos, stop := pos + ds.length + 2 } :: scanAux cs (pos + 1) := by
  rw [scanAux, h]
  rfl

theorem scanAux_digits_append (ds : List Char) (r : List Char) (pos : Nat)
    (hds : ∀ c ∈ ds, isDigitChar c) :
    scanAux (ds ++ r) pos = scanAux r (pos + ds.length) := by
  induction ds generalizing pos with
  | nil => simp [scanAux]
  | cons d ds ih =>
    have hd : isDigitChar d := hds d (List.mem_cons_self d ds)
    rw [List.cons_append, scanAux_cons_none (tokenAt_none_of_digit _ hd),
      ih (pos + 1) (fun c hc => hds c (List.mem_cons_of_mem d hc))]
    congr 1
    simp
    omega

/-- Splicing each match span (largest start first) with its replacement token
is the structural rewrite: the right-to-left order means no splice ever
invalidates the still-unprocessed earlier offsets. -/
theorem spliceAsc_eq_rwText (f : Nat → Nat) (t : List Char) :
    spliceAsc (itemsOfMatches f (scanAux t 0)) t = rwText f t := by
  suffices H : ∀ n (t : List Char), t.length ≤ n →
      spliceAsc (itemsOfMatches f (scanAux t 0)) t = rwText f t by
    exact H t.length t (Nat.le_refl _)
  intro n
  induction n with
  | zero =>
    intro t ht
    have hnil : t = [] := List.length_eq_zero.mp (Nat.le_zero.mp ht)
    subst hnil
    rfl
  | succ n ih =>
    intro t ht
    match t with
    | [] => rfl
    | c :: cs =>
      cases htok : tokenAt (c :: cs) with
      | none =>
        rw [scanAux_cons_none htok 0, scanAux_shift cs 1]
        have hitems : itemsOfMatches f ((scanAux cs 0).map fun m =>
            { m with start := m.start + 1, stop := m.stop + 1 }) =
            (itemsOfMatches f (scanAux cs 0)).map (shiftItem 1) := by
          simp only [itemsOfMatches, List.map_map]
          apply List.map_congr_left
          intro m _
          simp [shiftItem]
        rw [hitems]
        have hp : (1 : Nat) = [c].length := rfl
        rw [show (c :: cs) = [c] ++ cs by rfl, hp, spliceAsc_shift [c],
          ih cs (by simp at ht; omega)]
        simp only [List.singleton_append]
        rw [rwText_nomatch f htok]
      | some ds =>
        obtain ⟨hne, hdig, rest, hshape⟩ := tokenAt_eq_some htok
        have hc : c = '[' := by
          have := congrArg List.head? hshape
          simpa using this
        have hcs : cs = ds ++ ']' :: rest := by
          have := congrArg List.tail hshape
          simpa using this
        have hdrop : cs.drop (ds.length + 1) = rest := by
          rw [hcs, show ds ++ ']' :: rest = (ds ++ [']']) ++ rest by simp,
            show ds.length + 1 = (ds ++ [']']).length by simp]
          exact List.drop_left _ _
        have hrestlen : rest.length ≤ n := by
          have : (c :: cs).length = ds.length + 2 + rest.length := by
            rw [hcs]; simp; omega
          simp only [this] at ht
          omega
        have hscan1 : scanAux cs 1 = (scanAux rest 0).map fun m =>
            { m with start := m.start + (ds.length + 2), stop := m.stop + (ds.length + 2) } := by
          rw [hcs, scanAux_digits_append ds (']' :: rest) 1 hdig,
            scanAux_cons_none (tokenAt_none_of_head_ne rest (by decide)),
            scanAux_shift rest (1 + ds.length + 1)]
          apply List.map_congr_left
          intro m _
          simp
          omega
        rw [scanAux_cons_some htok 0]
        set p : List Char := '[' :: (ds ++ [']']) with hp
        have hplen : p.length = ds.length + 2 := by simp [hp]
        have ht_split : c :: cs = p ++ rest := by
          rw [hc, hcs, hp]; simp
        have hitems : itemsOfMatches f ((scanAux rest 0).map fun m =>
            { m with start := m.start + (ds.length + 2), stop := m.stop + (ds.length + 2) }) =
            (itemsOfMatches f (scanAux rest 0)).map (shiftItem p.length) := by
          simp only [itemsOfMatches, List.map_map]
          apply List.map_congr_left
          intro m _
          simp [shiftItem, hplen]
        have hcons : itemsOfMatches f
            ({ ds := ds, start := 0, stop := 0 + ds.length + 2 } :: scanAux cs 1) =
            { rawIndex := digitsToNat ds
              newIndex := f (digitsToNat ds)
              startIndex := 0
              endIndex := 0 + ds.length + 2 } :: itemsOfMatches f (scanAux cs 1) := rfl
        rw [hcons, spliceAsc_cons]
        have hsplice_tail : spliceAsc (itemsOfMatches f (scanAux cs 1)) (c :: cs) =
            p ++ rwText f rest := by
          rw [hscan1, hitems, ht_split, spliceAsc_shift p, ih rest hrestlen]
        rw [hsplice_tail, rwText_match f htok, hdrop]
        simp only [spliceOne, replacementTok, List.take_zero, List.nil_append]
        have hdropL : (p ++ rwText f rest).drop (0 + ds.length + 2) = rwText f rest := by
          rw [show (0 : Nat) + ds.length + 2 = p.length by rw [hplen]; omega]
          exact List.drop_left _ _
        rw [hdropL]
        simp

theorem orderedInsert_append_of_not_rel {r : α → α → Prop} [DecidableRel r]
    (a : α) (l : List α) (h : ∀ b ∈ l, ¬ r a b) :
    List.orderedInsert r a l = l ++ [a] := by
  induction l with
  | nil => rfl
  | cons b bs ih =>
    rw [List.orderedInsert, if_neg (h b (List.mem_cons_self b bs)),
      ih (fun x hx => h x (List.mem_cons_of_mem b hx))]
    rfl

/-- A stable descending sort of a strictly ascending list reverses it. -/
theorem insertionSort_desc_of_strict (its : List LabeledCitation)
    (h : its.Pairwise fun a b => a.startIndex < b.startIndex) :
    pySortItemsByStartDesc its = its.reverse := by
  induction its with
  | nil => rfl
  | cons it rest ih =>
    rw [List.pairwise_cons] at h
    rw [pySortItemsByStartDesc, List.insertionSort]
    have hrec : List.insertionSort (fun a b => b.startIndex ≤ a.startIndex) rest =
        rest.reverse := ih h.2
    rw [hrec]
    rw [orderedInsert_append_of_not_rel it rest.reverse ?_]
    · simp
    · intro b hb
      have hb' : b ∈ rest := List.mem_reverse.mp hb
      have := h.1 b hb'
      omega

theorem idxOf_lt_length {l : List Nat} {v : Nat} (h : v ∈ l) : idxOf l v < l.length := by
  induction l with
  | nil => simp at h
  | cons a as ih =>
    by_cases hav : a = v
    · simp [idxOf, hav]
    · have hv : v ∈ as := by
        rcases List.mem_cons.mp h with h1 | h1
        · exact absurd h1.symm hav
        · exact h1
      have := ih hv
      simp only [idxOf, hav, if_neg, not_false_iff, List.length_cons]
      omega

theorem idxOf_append_left {l : List Nat} {v : Nat} (h : v ∈ l) (l₂ : List Nat) :
    idxOf (l ++ l₂) v = idxOf l v := by
  induction l with
  | nil => simp at h
  | cons a as ih =>
    by_cases hav : a = v
    · simp [idxOf, hav]
    · have hv : v ∈ as := by
        rcases List.mem_cons.mp h with h1 | h1
        · exact absurd h1.symm hav
        · exact h1
      have hstep : (a :: as) ++ l₂ = a :: (as ++ l₂) := rfl
      rw [hstep, idxOf, idxOf, if_neg hav, if_neg hav, ih hv]

theorem idxOf_append_self {l : List Nat} {v : Nat} (h : v ∉ l) :
    idxOf (l ++ [v]) v = l.length := by
  induction l with
  | nil => simp [idxOf]
  | cons a as ih =>
    have hav : a ≠ v := fun hc => h (hc ▸ List.mem_cons_self a as)
    have hvas : v ∉ as := fun hc => h (List.mem_cons_of_mem a hc)
    have hstep : (a :: as) ++ [v] = a :: (as ++ [v]) := rfl
    rw [hstep, idxOf, if_neg hav, ih hvas, List.length_cons]

theorem idxOf_inj {l : List Nat} (hnd : l.Nodup) {v w : Nat} (hv : v ∈ l) (hw : w ∈ l)
    (h : idxOf l v = idxOf l w) : v = w := by
  induction l with
  | nil => simp at hv
  | cons a as ih =>
    rw [List.nodup_cons] at hnd
    by_cases hav : a = v <;> by_cases haw : a = w
    · exact hav.symm.trans haw
    · by_cases hvw : v = w
      · exact hvw
      · rw [idxOf, idxOf, if_pos hav, if_neg haw] at h
        omega
    · by_cases hvw : v = w
      · exact hvw
      · rw [idxOf, idxOf, if_neg hav, if_pos haw] at h
        omega
    · have hv' : v ∈ as := by
        rcases List.mem_cons.mp hv with h1 | h1
        · exact absurd h1.symm hav
        · exact h1
      have hw' : w ∈ as := by
        rcases List.mem_cons.mp hw with h1 | h1
        · exact absurd h1.symm haw
        · exact h1
      rw [idxOf, idxOf, if_neg hav, if_neg haw] at h
      exact ih hnd.2 hv' hw' (by omega)

theorem idxOf_get {l : List Nat} (hnd : l.Nodup) :
    ∀ i (hi : i < l.length), idxOf l (l.get ⟨i, hi⟩) = i := by
  induction l with
  | nil => intro i hi; simp at hi
  | cons a as ih =>
    rw [List.nodup_cons] at hnd
    intro i hi
    match i with
    | 0 => simp [idxOf]
    | j + 1 =>
      have hmem : as.get ⟨j, by simpa using hi⟩ ∈ as := List.get_mem as j _
      have hne : a ≠ as.get ⟨j, by simpa using hi⟩ := fun hc => hnd.1 (hc ▸ hmem)
      simp only [List.get_cons_succ, idxOf, hne, if_neg, not_false_iff]
      rw [ih hnd.2 j (by simpa using hi)]

theorem foAux_append_acc (vs : List Nat) : ∀ acc, ∃ ext, foAux vs acc = acc ++ ext := by
  induction vs with
  | nil => intro acc; exact ⟨[], by simp [foAux]⟩
  | cons v vs ih =>
    intro acc
    by_cases hv : v ∈ acc
    · obtain ⟨ext, hext⟩ := ih acc
      exact ⟨ext, by simp [foAux, foStep, hv, hext]⟩
    · obtain ⟨ext, hext⟩ := ih (acc ++ [v])
      refine ⟨v :: ext, ?_⟩
      simp only [foAux, foStep, hv, if_neg, not_false_iff, hext]
      simp

theorem mem_foAux {vs : List Nat} : ∀ {acc v}, v ∈ foAux vs acc ↔ v ∈ acc ∨ v ∈ vs := by
  induction vs with
  | nil => intro acc v; simp [foAux]
  | cons w vs ih =>
    intro acc v
    rw [foAux]
    rw [ih]
    by_cases hw : w ∈ acc
    · simp only [foStep, hw, if_pos]
      constructor
      · rintro (h | h)
        · exact Or.inl h
        · exact Or.inr (List.mem_cons_of_mem w h)
      · rintro (h | h)
        · exact Or.inl h
        · rcases List.mem_cons.mp h with h1 | h1
          · exact Or.inl (h1 ▸ hw)
          · exact Or.inr h1
    · simp only [foStep, hw, if_neg, not_false_iff, List.mem_append,
        List.mem_singleton, List.mem_cons]
      tauto

theorem mem_firstOccs {vs : List Nat} {v : Nat} : v ∈ firstOccs vs ↔ v ∈ vs := by
  rw [firstOccs, mem_foAux]
  simp

theorem foAux_nodup (vs : List Nat) : ∀ acc, acc.Nodup → (foAux vs acc).Nodup := by
  induction vs with
  | nil => intro acc h; exact h
  | cons v vs ih =>
    intro acc h
    rw [foAux]
    apply ih
    by_cases hv : v ∈ acc
    · simpa [foStep, hv] using h
    · rw [foStep, if_neg hv]
      rw [List.nodup_append]
      exact ⟨h, List.nodup_singleton v, by simpa using hv⟩

theorem firstOccs_nodup (vs : List Nat) : (firstOccs vs).Nodup :=
  foAux_nodup vs [] List.nodup_nil

theorem foAux_cons_mem {v : Nat} {acc : List Nat} (vs : List Nat) (h : v ∈ acc) :
    foAux (v :: vs) acc = foAux vs acc := by
  simp [foAux, foStep, h]

theorem foAux_cons_fresh {v : Nat} {acc : List Nat} (vs : List Nat) (h : v ∉ acc) :
    foAux (v :: vs) acc = foAux vs (acc ++ [v]) := by
  simp [foAux, foStep, h]

theorem foAux_append (p q : List Nat) : ∀ acc, foAux (p ++ q) acc = foAux q (foAux p acc) := by
  induction p with
  | nil => intro acc; rfl
  | cons v p ih =>
    intro acc
    rw [List.cons_append, foAux, foAux]
    exact ih _

theorem firstOccs_append (p q : List Nat) : firstOccs (p ++ q) = foAux q (firstOccs p) :=
  foAux_append p q []

theorem toFinset_foAux (vs : List Nat) : ∀ acc, (foAux vs acc).toFinset = acc.toFinset ∪ vs.toFinset := by
  intro acc
  ext v
  simp [mem_foAux]

theorem firstOccs_length_eq_card (vs : List Nat) :
    (firstOccs vs).length = vs.toFinset.card := by
  have h1 : (firstOccs vs).toFinset = vs.toFinset := by
    rw [firstOccs, toFinset_foAux]
    simp
  rw [← h1]
  exact (List.toFinset_card_of_nodup (firstOccs_nodup vs)).symm

theorem enumFrom_length (l : List Nat) : ∀ i, (enumFrom i l).length = l.length := by
  induction l with
  | nil => intro i; rfl
  | cons v vs ih => intro i; simp [enumFrom, ih]

theorem enumFrom_append_one (l : List Nat) (v : Nat) :
    ∀ i, enumFrom i (l ++ [v]) = enumFrom i l ++ [(v, i + l.length)] := by
  induction l with
  | nil => intro i; simp [enumFrom]
  | cons w ws ih =>
    intro i
    rw [List.cons_append, enumFrom, enumFrom, ih (i + 1),
      show i + 1 + ws.length = i + (w :: ws).length by simp; omega]
    simp

theorem lookupA_enumFrom (l : List Nat) (hnd : l.Nodup) (v : Nat) :
    ∀ i, lookupA (enumFrom i l) v = if v ∈ l then some (idxOf l v + i) else none := by
  induction l with
  | nil => intro i; simp [enumFrom, lookupA]
  | cons w ws ih =>
    rw [List.nodup_cons] at hnd
    intro i
    by_cases hwv : w = v
    · subst hwv
      simp [enumFrom, lookupA, idxOf]
    · rw [enumFrom, lookupA, if_neg hwv, ih hnd.2 (i + 1)]
      by_cases hmem : v ∈ ws
      · have hv : v ∈ w :: ws := List.mem_cons_of_mem w hmem
        rw [if_pos hmem, if_pos hv, idxOf, if_neg hwv]
        congr 1
        omega
      · have hv : v ∉ w :: ws := by
          intro hc
          rcases List.mem_cons.mp hc with h1 | h1
          · exact hwv h1.symm
          · exact hmem h1
        rw [if_neg hmem, if_neg hv]

theorem mapFor_append_mem (pv : List Nat) {v : Nat} (h : v ∈ firstOccs pv) :
    mapFor (pv ++ [v]) = mapFor pv := by
  rw [mapFor, mapFor, firstOccs_append, foAux, foStep, if_pos h, foAux]

theorem mapFor_append_fresh (pv : List Nat) {v : Nat} (h : v ∉ firstOccs pv) :
    mapFor (pv ++ [v]) = mapFor pv ++ [(v, (firstOccs pv).length + 1)] := by
  rw [mapFor, mapFor, firstOccs_append, foAux, foStep, if_neg h, foAux,
    enumFrom_append_one, Nat.add_comm 1 (firstOccs pv).length]

theorem idxOf_firstOccs_stable (pv rest : List Nat) {v : Nat} (h : v ∈ firstOccs pv) :
    idxOf (firstOccs (pv ++ rest)) v = idxOf (firstOccs pv) v := by
  rw [firstOccs_append]
  obtain ⟨ext, hext⟩ := foAux_append_acc rest (firstOccs pv)
  rw [hext, idxOf_append_left h]

theorem updMap_mapFor (pv : List Nat) (v : Nat) :
    updMap (mapFor pv) v = mapFor (pv ++ [v]) := by
  by_cases hv : v ∈ firstOccs pv
  · rw [mapFor_append_mem pv hv, updMap, mapFor,
      lookupA_enumFrom _ (firstOccs_nodup pv) v 1, if_pos hv]
    simp
  · rw [updMap, mapFor, lookupA_enumFrom _ (firstOccs_nodup pv) v 1, if_neg hv,
      mapFor_append_fresh pv hv]
    simp [mapFor, enumFrom_length]

theorem lookupA_mapFor_self (pv : List Nat) (v : Nat) :
    lookupA (mapFor (pv ++ [v])) v =
      some (idxOf (firstOccs (pv ++ [v])) v + 1) := by
  have hmem : v ∈ firstOccs (pv ++ [v]) := mem_firstOccs.mpr (by simp)
  rw [mapFor, lookupA_enumFrom _ (firstOccs_nodup _) v 1, if_pos hmem]

/-- What the labelling loop computes: every citation is labelled with its raw
value and the 1-based rank of that value's first appearance in the processed
value sequence. -/
theorem assignLabels_spec (cs : List Citation) : ∀ pv,
    (assignLabels cs (mapFor pv)).1 = cs.map fun c =>
      { rawIndex := c.index
        newIndex := idxOf (firstOccs (pv ++ cs.map Citation.index)) c.index + 1
        startIndex := c.startIndex.getD 0
        endIndex := c.endIndex.getD 0 } := by
  induction cs with
  | nil => intro pv; rfl
  | cons c cs ih =>
    intro pv
    rw [assignLabels, updMap_mapFor, lookupA_mapFor_self, ih (pv ++ [c.index])]
    rw [show pv ++ (c :: cs).map Citation.index =
        (pv ++ [c.index]) ++ cs.map Citation.index by simp]
    simp only [List.map_cons, Option.getD_some]
    have hmem : c.index ∈ firstOccs (pv ++ [c.index]) := mem_firstOccs.mpr (by simp)
    have hstable : idxOf (firstOccs ((pv ++ [c.index]) ++ cs.map Citation.index)) c.index
        = idxOf (firstOccs (pv ++ [c.index])) c.index :=
      idxOf_firstOccs_stable (pv ++ [c.index]) (cs.map Citation.index) hmem
    rw [hstable]

theorem extract_map_index (t : List Char) :
    (extractCitations t).map Citation.index = scanVals t := by
  rw [extractCitations, scanVals, ← scanDs_eq_map t 0, List.map_map, List.map_map]
  rfl

theorem extract_length (t : List Char) :
    (extractCitations t).length = (scanDs t).length := by
  have := congrArg List.length (extract_map_index t)
  simpa [scanVals] using this

theorem extract_pairwise_lt (t : List Char) :
    (extractCitations t).Pairwise fun a b => a.startIndex.getD 0 < b.startIndex.getD 0 := by
  rw [extractCitations]
  exact List.Pairwise.map _ (fun a b hab => by simpa using hab)
    (scanAux_start_strict t 0)

theorem pySort_extract_eq (t : List Char) :
    pySortCitationsByStart (extractCitations t) = extractCitations t := by
  apply List.Sorted.insertionSort_eq
  exact (extract_pairwise_lt t).imp Nat.le_of_lt

/-- A text with no bracket matches is left unchanged by rewriting. -/
theorem rwText_id_of_no_matches (f : Nat → Nat) (t : List Char)
    (h : scanDs t = []) : rwText f t = t := by
  induction t with
  | nil => rfl
  | cons c cs ih =>
    cases htok : tokenAt (c :: cs) with
    | some ds =>
      rw [scanDs_cons_some htok] at h
      exact absurd h (by simp)
    | none =>
      rw [scanDs_cons_none htok] at h
      rw [rwText_nomatch f htok, ih h]

theorem assignLabels_extract (t : List Char) :
    (assignLabels (extractCitations t) []).1 =
      itemsOfMatches (faMap (scanVals t)) (scanAux t 0) := by
  have h := assignLabels_spec (extractCitations t) []
  rw [show mapFor ([] : List Nat) = [] from rfl] at h
  simp only [List.nil_append, extract_map_index] at h
  rw [h, extractCitations, List.map_map, itemsOfMatches]
  apply List.map_congr_left
  intro m _
  simp [faMap]

theorem labeled_extract_pairwise (t : List Char) :
    ((assignLabels (extractCitations t) []).1).Pairwise
      fun a b => a.startIndex < b.startIndex := by
  rw [assignLabels_extract, itemsOfMatches]
  exact List.Pairwise.map _ (fun a b hab => by simpa using hab)
    (scanAux_start_strict t 0)

theorem pySortItems_of_sorted (its : List LabeledCitation)
    (h : its.Pairwise fun a b => a.startIndex < b.startIndex) :
    pySortItemsByStart its = its :=
  List.Sorted.insertionSort_eq (h.imp Nat.le_of_lt)

theorem scanAux_nil_iff (t : List Char) : scanAux t 0 = [] ↔ scanDs t = [] := by
  rw [← scanDs_eq_map t 0]
  simp

/-- Normal form of the renumbering pass on a scanned citation list: the text
becomes the structural rewrite under the first-appearance map, and the output
citations zip the labels with the re-extracted spans. -/
theorem reassign_extract_eq (t : List Char) :
    reassignCitationsInOrder t (extractCitations t) =
      (rwText (faMap (scanVals t)) t,
       ((itemsOfMatches (faMap (scanVals t)) (scanAux t 0)).zip
         (extractCitations (rwText (faMap (scanVals t)) t))).map fun p =>
         { rawIndex := some p.1.rawIndex
           index := p.1.newIndex
           startIndex := p.2.startIndex
           endIndex := p.2.endIndex
           snippetStartIndex := p.2.snippetStartIndex
           snippetEndIndex := p.2.snippetEndIndex }) := by
  by_cases hnil : extractCitations t = []
  · have hlen : (scanDs t).length = 0 := by
      rw [← extract_length t, hnil]
      rfl
    have hds : scanDs t = [] := List.length_eq_zero.mp hlen
    have hma : scanAux t 0 = [] := (scanAux_nil_iff t).mpr hds
    rw [reassignCitationsInOrder, if_pos hnil, rwText_id_of_no_matches _ _ hds, hma]
    rfl
  · rw [reassignCitationsInOrder, if_neg hnil]
    simp only [pySort_extract_eq, assignLabels_extract]
    have hpair : (itemsOfMatches (faMap (scanVals t)) (scanAux t 0)).Pairwise
        fun a b => a.startIndex < b.startIndex := by
      rw [← assignLabels_extract]
      exact labeled_extract_pairwise t
    rw [insertionSort_desc_of_strict _ hpair, spliceDesc_reverse,
      spliceAsc_eq_rwText, pySortItems_of_sorted _ hpair]

theorem itemsOfMatches_length (f : Nat → Nat) (ms : List BMatch) :
    (itemsOfMatches f ms).length = ms.length := by
  simp [itemsOfMatches]

theorem scanVals_length (t : List Char) : (scanVals t).length = (scanDs t).length := by
  simp [scanVals]

theorem scanAux_length_eq_scanDs (t : List Char) :
    (scanAux t 0).length = (scanDs t).length := by
  have := congrArg List.length (scanDs_eq_map t 0)
  simpa using this

theorem itemsOfMatches_map_newIndex (f : Nat → Nat) (t : List Char) :
    (itemsOfMatches f (scanAux t 0)).map LabeledCitation.newIndex =
      (scanVals t).map f := by
  rw [itemsOfMatches, List.map_map, scanVals, ← scanDs_eq_map t 0, List.map_map,
    List.map_map]
  rfl

theorem itemsOfMatches_map_rawIndex (f : Nat → Nat) (t : List Char) :
    (itemsOfMatches f (scanAux t 0)).map LabeledCitation.rawIndex = scanVals t := by
  rw [itemsOfMatches, List.map_map, scanVals, ← scanDs_eq_map t 0, List.map_map]
  rfl

/-- List-level description of the renumbering output: lengths and the `index`
and `rawIndex` columns. -/
theorem reassign_output_maps (t : List Char) :
    (reassignCitationsInOrder t (extractCitations t)).2.length = (scanVals t).length ∧
    (reassignCitationsInOrder t (extractCitations t)).2.map Citation.index =
      (scanVals t).map (faMap (scanVals t)) ∧
    (reassignCitationsInOrder t (extractCitations t)).2.map Citation.rawIndex =
      (scanVals t).map some := by
  rw [reassign_extract_eq t]
  have hlenR : (extractCitations (rwText (faMap (scanVals t)) t)).length =
      (scanVals t).length := by
    rw [extract_length, scanDs_rwText_length, scanVals_length]
  have hlenI : (itemsOfMatches (faMap (scanVals t)) (scanAux t 0)).length =
      (scanVals t).length := by
    rw [itemsOfMatches_length, scanAux_length_eq_scanDs, scanVals_length]
  have hlenIR : (itemsOfMatches (faMap (scanVals t)) (scanAux t 0)).length ≤
      (extractCitations (rwText (faMap (scanVals t)) t)).length := by
    omega
  refine ⟨?_, ?_, ?_⟩
  · simp only [List.length_map, List.length_zip]
    omega
  · rw [List.map_map]
    have hfst : ∀ p : LabeledCitation × Citation,
        (Citation.index ∘ fun p : LabeledCitation × Citation =>
          ({ rawIndex := some p.1.rawIndex
             index := p.1.newIndex
             startIndex := p.2.startIndex
             endIndex := p.2.endIndex
             snippetStartIndex := p.2.snippetStartIndex
             snippetEndIndex := p.2.snippetEndIndex } : Citation)) p =
          p.1.newIndex := fun p => rfl
    calc ((itemsOfMatches (faMap (scanVals t)) (scanAux t 0)).zip
            (extractCitations (rwText (faMap (scanVals t)) t))).map _
        = (((itemsOfMatches (faMap (scanVals t)) (scanAux t 0)).zip
            (extractCitations (rwText (faMap (scanVals t)) t))).map Prod.fst).map
            LabeledCitation.newIndex := by
          rw [List.map_map]
          rfl
      _ = (itemsOfMatches (faMap (scanVals t)) (scanAux t 0)).map
            LabeledCitation.newIndex := by
          rw [List.map_fst_zip _ _ hlenIR]
      _ = (scanVals t).map (faMap (scanVals t)) := itemsOfMatches_map_newIndex _ t
  · rw [List.map_map]
    calc ((itemsOfMatches (faMap (scanVals t)) (scanAux t 0)).zip
            (extractCitations (rwText (faMap (scanVals t)) t))).map _
        = (((itemsOfMatches (faMap (scanVals t)) (scanAux t 0)).zip
            (extractCitations (rwText (faMap (scanVals t)) t))).map Prod.fst).map
            (fun it => some it.rawIndex) := by
          rw [List.map_map]
          rfl
      _ = (itemsOfMatches (faMap (scanVals t)) (scanAux t 0)).map
            (fun it => some it.rawIndex) := by
          rw [List.map_fst_zip _ _ hlenIR]
      _ = (scanVals t).map some := by
          rw [show (fun it : LabeledCitation => some it.rawIndex) =
            some ∘ LabeledCitation.rawIndex from rfl, ← List.map_map,
            itemsOfMatches_map_rawIndex]

theorem faMap_pos (vs : List Nat) (v : Nat) : 1 ≤ faMap vs v := by
  rw [faMap]; omega

theorem faMap_le_card (vs : List Nat) (v : Nat) (hv : v ∈ vs) :
    faMap vs v ≤ vs.toFinset.card := by
  rw [faMap, ← firstOccs_length_eq_card]
  have := idxOf_lt_length (mem_firstOccs.mpr hv)
  omega

theorem faMap_inj_iff (vs : List Nat) (v w : Nat) (hv : v ∈ vs) (hw : w ∈ vs) :
    faMap vs v = faMap vs w ↔ v = w := by
  constructor
  · intro h
    rw [faMap, faMap] at h
    exact idxOf_inj (firstOccs_nodup vs) (mem_firstOccs.mpr hv)
      (mem_firstOccs.mpr hw) (by omega)
  · intro h; rw [h]

theorem faMap_surjective (vs : List Nat) (k : Nat) (h1 : 1 ≤ k)
    (h2 : k ≤ vs.toFinset.card) : ∃ v ∈ vs, faMap vs v = k := by
  have hlt : k - 1 < (firstOccs vs).length := by
    rw [firstOccs_length_eq_card]; omega
  refine ⟨(firstOccs vs).get ⟨k - 1, hlt⟩,
    mem_firstOccs.mp (List.get_mem _ _ _), ?_⟩
  rw [faMap, idxOf_get (firstOccs_nodup vs) (k - 1) hlt]
  omega

theorem faMap_fresh (vs : List Nat) (j : Nat) (hj : j < vs.length)
    (hfresh : vs.get ⟨j, hj⟩ ∉ vs.take j) :
    faMap vs (vs.get ⟨j, hj⟩) = (vs.take j).toFinset.card + 1 := by
  have hsplit : vs = vs.take j ++ (vs.get ⟨j, hj⟩ :: vs.drop (j + 1)) := by
    conv_lhs => rw [← List.take_append_drop j vs]
    congr 1
    rw [List.drop_eq_getElem_cons hj]
    simp
  have hvnotfo : vs.get ⟨j, hj⟩ ∉ firstOccs (vs.take j) :=
    fun hc => hfresh (mem_firstOccs.mp hc)
  have h1 := congrArg firstOccs hsplit
  rw [firstOccs_append, foAux_cons_fresh _ hvnotfo] at h1
  obtain ⟨ext, hext⟩ := foAux_append_acc (vs.drop (j + 1))
    (firstOccs (vs.take j) ++ [vs.get ⟨j, hj⟩])
  rw [hext] at h1
  rw [faMap, h1,
    idxOf_append_left (List.mem_append_right _ (List.mem_singleton_self _)),
    idxOf_append_self hvnotfo, firstOccs_length_eq_card]

/-- Pointwise description of the renumbering output: position `j` carries the
`j`-th scanned value as `rawIndex` and its first-appearance rank as `index`. -/
theorem reassign_output_get (t : List Char) (j : Nat)
    (hj : j < (reassignCitationsInOrder t (extractCitations t)).2.length) :
    ∃ hv : j < (scanVals t).length,
      ((reassignCitationsInOrder t (extractCitations t)).2.get ⟨j, hj⟩).index =
        faMap (scanVals t) ((scanVals t).get ⟨j, hv⟩) ∧
      ((reassignCitationsInOrder t (extractCitations t)).2.get ⟨j, hj⟩).rawIndex =
        some ((scanVals t).get ⟨j, hv⟩) := by
  obtain ⟨hlen, hidx, hraw⟩ := reassign_output_maps t
  have hv : j < (scanVals t).length := by omega
  refine ⟨hv, ?_, ?_⟩
  · have h1 := congrArg (fun l => l[j]?) hidx
    simp only [List.getElem?_map] at h1
    rw [List.getElem?_eq_getElem hj, List.getElem?_eq_getElem hv] at h1
    simp at h1
    simpa [List.get_eq_getElem] using h1
  · have h1 := congrArg (fun l => l[j]?) hraw
    simp only [List.getElem?_map] at h1
    rw [List.getElem?_eq_getElem hj, List.getElem?_eq_getElem hv] at h1
    simp at h1
    simpa [List.get_eq_getElem] using h1

theorem toFinset_card_map_some (l : List Nat) :
    ((l.map some).toFinset).card = l.toFinset.card := by
  induction l with
  | nil => rfl
  | cons v vs ih =>
    simp only [List.map_cons, List.toFinset_cons]
    by_cases hv : v ∈ vs
    · rw [Finset.insert_eq_self.mpr (by simpa using List.mem_map_of_mem some hv),
        Finset.insert_eq_self.mpr (by simpa using hv), ih]
    · rw [Finset.card_insert_of_not_mem (by simpa using hv),
        Finset.card_insert_of_not_mem (by simpa using hv), ih]

/-- C1: for every text and its scanned citation list,
`reassign_citations_in_order` assigns `index` values forming the contiguous
range `1..U`, where `U` is the number of distinct raw bracket values, in
order of first appearance by ascending start position; two occurrences
receive the same new index iff they have the same raw bracket value; and
every output citation carries both `rawIndex` and `index`. -/
theorem c1_renumber_first_appearance (t : List Char) (out : List Citation) (U : Nat)
    (hout : out = (reassignCitationsInOrder t (extractCitations t)).2)
    (hU : U = ((extractCitations t).map Citation.index).toFinset.card) :
    (∀ c ∈ out, c.rawIndex.isSome) ∧
    (∀ p ∈ out, ∀ q ∈ out, (p.index = q.index ↔ p.rawIndex = q.rawIndex)) ∧
    (∀ c ∈ out, 1 ≤ c.index ∧ c.index ≤ U) ∧
    (∀ k, 1 ≤ k → k ≤ U → ∃ c ∈ out, c.index = k) ∧
    (∀ j (hj : j < out.length),
      (out.get ⟨j, hj⟩).rawIndex ∉ (out.take j).map Citation.rawIndex →
      (out.get ⟨j, hj⟩).index = ((out.take j).map Citation.rawIndex).toFinset.card + 1) := by
  subst hout
  have hU' : U = (scanVals t).toFinset.card := by
    rw [hU, extract_map_index]
  obtain ⟨hlen, hidx, hraw⟩ := reassign_output_maps t
  set out := (reassignCitationsInOrder t (extractCitations t)).2 with hout
  have hget : ∀ j (hj : j < out.length), ∃ hv : j < (scanVals t).length,
      (out.get ⟨j, hj⟩).index = faMap (scanVals t) ((scanVals t).get ⟨j, hv⟩) ∧
      (out.get ⟨j, hj⟩).rawIndex = some ((scanVals t).get ⟨j, hv⟩) :=
    fun j hj => reassign_output_get t j hj
  refine ⟨?_, ?_, ?_, ?_, ?_⟩
  · intro c hc
    obtain ⟨⟨j, hj⟩, hcj⟩ := List.mem_iff_get.mp hc
    obtain ⟨hv, hidxj, hrawj⟩ := hget j hj
    rw [← hcj, hrawj]
    rfl
  · intro p hp q hq
    obtain ⟨⟨i, hi⟩, hpi⟩ := List.mem_iff_get.mp hp
    obtain ⟨⟨j, hj⟩, hqj⟩ := List.mem_iff_get.mp hq
    obtain ⟨hvi, hidxi, hrawi⟩ := hget i hi
    obtain ⟨hvj, hidxj, hrawj⟩ := hget j hj
    rw [← hpi, ← hqj, hidxi, hidxj, hrawi, hrawj]
    rw [faMap_inj_iff _ _ _ (List.get_mem _ _ _) (List.get_mem _ _ _)]
    simp
  · intro c hc
    obtain ⟨⟨j, hj⟩, hcj⟩ := List.mem_iff_get.mp hc
    obtain ⟨hv, hidxj, hrawj⟩ := hget j hj
    rw [← hcj, hidxj, hU']
    exact ⟨faMap_pos _ _, faMap_le_card _ _ (List.get_mem _ _ _)⟩
  · intro k h1 h2
    obtain ⟨v, hvmem, hvk⟩ := faMap_surjective (scanVals t) k h1 (hU' ▸ h2)
    obtain ⟨⟨j, hjv⟩, hgetv⟩ := List.mem_iff_get.mp hvmem
    have hj : j < out.length := by omega
    refine ⟨out.get ⟨j, hj⟩, List.get_mem _ _ _, ?_⟩
    obtain ⟨hv, hidxj, hrawj⟩ := hget j hj
    rw [hidxj]
    have : (scanVals t).get ⟨j, hv⟩ = v := hgetv
    rw [this, hvk]
  · intro j hj hfresh
    obtain ⟨hv, hidxj, hrawj⟩ := hget j hj
    have htake : (out.take j).map Citation.rawIndex = ((scanVals t).take j).map some := by
      rw [List.map_take, hraw, ← List.map_take]
    rw [htake] at hfresh ⊢
    rw [hrawj] at hfresh
    have hfresh' : (scanVals t).get ⟨j, hv⟩ ∉ (scanVals t).take j := by
      intro hc
      exact hfresh (List.mem_map_of_mem some hc)
    rw [hidxj, faMap_fresh _ j hv hfresh', toFinset_card_map_some]

/-- Witness for C1 at the spec's repeated-reference example shape. -/
theorem c1_renumber_first_appearance_witness :
    ∃ c ∈ (reassignCitationsInOrder ("a[2] b[2] c[5]").toList
      (extractCitations ("a[2] b[2] c[5]").toList)).2, c.index = 2 :=
  (c1_renumber_first_appearance ("a[2] b[2] c[5]").toList _ _ rfl rfl).2.2.2.1 2
    (by norm_num) (by decide)

/-- C3: re-scanning the output text of `reassign_citations_in_order` with
`extract_citations` yields exactly as many citations, in the same
left-to-right order, as the relabelled citation list it returns, and each
relabelled citation's `startIndex`/`endIndex`/snippet offsets equal those of
the corresponding re-scanned record. -/
theorem c3_rescan_round_trip (t : List Char) :
    (extractCitations (reassignCitationsInOrder t (extractCitations t)).1).length =
      (reassignCitationsInOrder t (extractCitations t)).2.length ∧
    ∀ j : Nat,
      ((reassignCitationsInOrder t (extractCitations t)).2[j]?).map
          (fun c => (c.startIndex, c.endIndex, c.snippetStartIndex, c.snippetEndIndex)) =
        ((extractCitations (reassignCitationsInOrder t (extractCitations t)).1)[j]?).map
          (fun c => (c.startIndex, c.endIndex, c.snippetStartIndex, c.snippetEndIndex)) := by
  rw [reassign_extract_eq t]
  dsimp only
  have hlen_IR : (itemsOfMatches (faMap (scanVals t)) (scanAux t 0)).length =
      (extractCitations (rwText (faMap (scanVals t)) t)).length := by
    rw [itemsOfMatches_length, scanAux_length_eq_scanDs, extract_length,
      scanDs_rwText_length]
  have hziplen : ((itemsOfMatches (faMap (scanVals t)) (scanAux t 0)).zip
      (extractCitations (rwText (faMap (scanVals t)) t))).length =
      (extractCitations (rwText (faMap (scanVals t)) t)).length := by
    rw [List.length_zip]
    omega
  constructor
  · simp only [List.length_map]
    omega
  · intro j
    by_cases hj : j < (extractCitations (rwText (faMap (scanVals t)) t)).length
    · have hjz : j < ((itemsOfMatches (faMap (scanVals t)) (scanAux t 0)).zip
          (extractCitations (rwText (faMap (scanVals t)) t))).length := by omega
      have hjm : j < (((itemsOfMatches (faMap (scanVals t)) (scanAux t 0)).zip
          (extractCitations (rwText (faMap (scanVals t)) t))).map fun p =>
            ({ rawIndex := some p.1.rawIndex
               index := p.1.newIndex
               startIndex := p.2.startIndex
               endIndex := p.2.endIndex
               snippetStartIndex := p.2.snippetStartIndex
               snippetEndIndex := p.2.snippetEndIndex } : Citation)).length := by
        simpa using hjz
      rw [List.getElem?_eq_getElem hjm, List.getElem?_eq_getElem hj]
      simp only [Option.map_some', List.getElem_map, List.getElem_zip]
    · have h1 : (((itemsOfMatches (faMap (scanVals t)) (scanAux t 0)).zip
          (extractCitations (rwText (faMap (scanVals t)) t))).map fun p =>
            ({ rawIndex := some p.1.rawIndex
               index := p.1.newIndex
               startIndex := p.2.startIndex
               endIndex := p.2.endIndex
               snippetStartIndex := p.2.snippetStartIndex
               snippetEndIndex := p.2.snippetEndIndex } : Citation)).length ≤ j := by
        simp only [List.length_map]
        omega
      rw [List.getElem?_eq_none h1, List.getElem?_eq_none (by omega)]

theorem scanVals_rwText (f : Nat → Nat) (t : List Char) :
    scanVals (rwText f t) = (scanVals t).map f := by
  rw [scanVals, scanDs_rwText, scanVals, List.map_map, List.map_map]
  apply List.map_congr_left
  intro ds _
  simp only [Function.comp_apply]
  rw [digitsToNat_natToChars]

theorem foAux_map_inj (g : Nat → Nat) (vs : List Nat) :
    ∀ acc : List Nat,
      (∀ a b, (a ∈ acc ∨ a ∈ vs) → (b ∈ acc ∨ b ∈ vs) → g a = g b → a = b) →
      foAux (vs.map g) (acc.map g) = (foAux vs acc).map g := by
  induction vs with
  | nil => intro acc _; rfl
  | cons v vs ih =>
    intro acc hinj
    have hmem : g v ∈ acc.map g ↔ v ∈ acc := by
      constructor
      · intro h
        obtain ⟨b, hb, hgb⟩ := List.mem_map.mp h
        have := hinj b v (Or.inl hb) (Or.inr (List.mem_cons_self v vs)) hgb
        exact this ▸ hb
      · exact List.mem_map_of_mem g
    rw [List.map_cons, foAux, foAux, foStep, foStep]
    by_cases hv : v ∈ acc
    · rw [if_pos hv, if_pos (hmem.mpr hv)]
      apply ih acc
      intro a b ha hb
      apply hinj a b
      · rcases ha with h | h
        · exact Or.inl h
        · exact Or.inr (List.mem_cons_of_mem v h)
      · rcases hb with h | h
        · exact Or.inl h
        · exact Or.inr (List.mem_cons_of_mem v h)
    · rw [if_neg hv, if_neg (fun hc => hv (hmem.mp hc))]
      rw [show acc.map g ++ [g v] = (acc ++ [v]).map g by simp]
      apply ih (acc ++ [v])
      intro a b ha hb
      apply hinj a b
      · rcases ha with h | h
        · rcases List.mem_append.mp h with h1 | h1
          · exact Or.inl h1
          · simp only [List.mem_singleton] at h1
            exact Or.inr (h1 ▸ List.mem_cons_self v vs)
        · exact Or.inr (List.mem_cons_of_mem v h)
      · rcases hb with h | h
        · rcases List.mem_append.mp h with h1 | h1
          · exact Or.inl h1
          · simp only [List.mem_singleton] at h1
            exact Or.inr (h1 ▸ List.mem_cons_self v vs)
        · exact Or.inr (List.mem_cons_of_mem v h)

theorem idxOf_map_inj (g : Nat → Nat) (l : List Nat) (v : Nat) (hv : v ∈ l)
    (hinj : ∀ a b, a ∈ l → b ∈ l → g a = g b → a = b) :
    idxOf (l.map g) (g v) = idxOf l v := by
  induction l with
  | nil => simp at hv
  | cons a as ih =>
    rw [List.map_cons, idxOf, idxOf]
    by_cases hav : a = v
    · rw [if_pos hav, if_pos (congrArg g hav)]
    · have hne : g a ≠ g v :=
        fun hc => hav (hinj a v (List.mem_cons_self a as)
          hv hc)
      rw [if_neg hav, if_neg hne]
      have hv' : v ∈ as := by
        rcases List.mem_cons.mp hv with h1 | h1
        · exact absurd h1.symm hav
        · exact h1
      rw [ih hv' (fun a b ha hb => hinj a b (List.mem_cons_of_mem _ ha)
        (List.mem_cons_of_mem _ hb))]

/-- The first-appearance map of an already-relabelled value sequence is the
identity on its values. -/
theorem faMap_canonical (vs : List Nat) (w : Nat)
    (hw : w ∈ vs.map (faMap vs)) : faMap (vs.map (faMap vs)) w = w := by
  obtain ⟨v, hv, hvw⟩ := List.mem_map.mp hw
  subst hvw
  have hinj : ∀ a b, a ∈ vs → b ∈ vs → faMap vs a = faMap vs b → a = b :=
    fun a b ha hb h => (faMap_inj_iff vs a b ha hb).mp h
  have hfo : firstOccs (vs.map (faMap vs)) = (firstOccs vs).map (faMap vs) := by
    rw [firstOccs, firstOccs]
    have := foAux_map_inj (faMap vs) vs []
      (by
        intro a b ha hb h
        rcases ha with h1 | h1
        · simp at h1
        · rcases hb with h2 | h2
          · simp at h2
          · exact hinj a b h1 h2 h)
    simpa using this
  rw [faMap, hfo,
    idxOf_map_inj (faMap vs) (firstOccs vs) v (mem_firstOccs.mpr hv)
      (fun a b ha hb h => hinj a b (mem_firstOccs.mp ha) (mem_firstOccs.mp hb) h)]
  rfl

/-- C10: the scan-and-renumber pass is idempotent on the text: renumbering
the renumberer's own output changes nothing, and every citation of the second
pass has `index` equal to `rawIndex`. -/
theorem c10_reassign_idempotent (t : List Char) (t1 : List Char)
    (res2 : List Char × List Citation)
    (ht1 : t1 = (reassignCitationsInOrder t (extractCitations t)).1)
    (hres2 : res2 = reassignCitationsInOrder t1 (extractCitations t1)) :
    res2.1 = t1 ∧ ∀ c ∈ res2.2, c.rawIndex = some c.index := by
  have h1 := reassign_extract_eq t
  have ht1' : t1 = rwText (faMap (scanVals t)) t := by
    rw [ht1, h1]
  have hvals : scanVals t1 = (scanVals t).map (faMap (scanVals t)) := by
    rw [ht1', scanVals_rwText]
  have hcanon : ∀ w ∈ scanVals t1, faMap (scanVals t1) w = w := by
    intro w hw
    rw [hvals] at hw ⊢
    exact faMap_canonical (scanVals t) w hw
  have htext : rwText (faMap (scanVals t1)) t1 = t1 := by
    rw [hvals]
    conv_lhs => rw [ht1']
    rw [rwText_comp]
    have hcongr : rwText (fun v => faMap ((scanVals t).map (faMap (scanVals t)))
        (faMap (scanVals t) v)) t = rwText (faMap (scanVals t)) t := by
      apply rwText_congr
      intro ds hds
      have hw : faMap (scanVals t) (digitsToNat ds) ∈
          (scanVals t).map (faMap (scanVals t)) := by
        apply List.mem_map_of_mem
        rw [scanVals]
        exact List.mem_map_of_mem _ hds
      exact faMap_canonical (scanVals t) _ hw
    rw [hcongr, ← ht1']
  constructor
  · rw [hres2, reassign_extract_eq t1]
    exact htext
  · intro c hc
    rw [hres2] at hc
    obtain ⟨⟨j, hj⟩, hcj⟩ := List.mem_iff_get.mp hc
    obtain ⟨hv, hidxj, hrawj⟩ := reassign_output_get t1 j hj
    rw [← hcj, hidxj, hrawj, hcanon _ (List.get_mem _ _ _)]

/-- Witness for C10 at a concrete input. -/
theorem c10_reassign_idempotent_witness :
    (reassignCitationsInOrder
        (reassignCitationsInOrder ("a[5] b[5] c[2]").toList
          (extractCitations ("a[5] b[5] c[2]").toList)).1
        (extractCitations
          (reassignCitationsInOrder ("a[5] b[5] c[2]").toList
            (extractCitations ("a[5] b[5] c[2]").toList)).1)).1 =
      (reassignCitationsInOrder ("a[5] b[5] c[2]").toList
        (extractCitations ("a[5] b[5] c[2]").toList)).1 ∧
    ∀ c ∈ (reassignCitationsInOrder
        (reassignCitationsInOrder ("a[5] b[5] c[2]").toList
          (extractCitations ("a[5] b[5] c[2]").toList)).1
        (extractCitations
          (reassignCitationsInOrder ("a[5] b[5] c[2]").toList
            (extractCitations ("a[5] b[5] c[2]").toList)).1)).2,
      c.rawIndex = some c.index :=
  c10_reassign_idempotent ("a[5] b[5] c[2]").toList _ _ rfl rfl

theorem mapListOption_length {f : α → Option β} :
    ∀ {l : List α} {out : List β}, mapListOption f l = some out →
      out.length = l.length := by
  intro l
  induction l with
  | nil => intro out h; simp [mapListOption] at h; rw [h]; rfl
  | cons a as ih =>
    intro out h
    rw [mapListOption] at h
    match hfa : f a, hrest : mapListOption f as with
    | some b, some bs =>
      rw [hfa, hrest] at h
      simp only [Option.some.injEq] at h
      rw [← h, List.length_cons, List.length_cons, ih hrest]
    | some b, none => rw [hfa, hrest] at h; exact absurd h (by simp)
    | none, some bs => rw [hfa, hrest] at h; exact absurd h (by simp)
    | none, none => rw [hfa, hrest] at h; exact absurd h (by simp)

theorem mapListOption_getElem? {f : α → Option β} :
    ∀ {l : List α} {out : List β}, mapListOption f l = some out →
      ∀ j, j < l.length → ∃ hj : j < l.length, out[j]? = f (l.get ⟨j, hj⟩) := by
  intro l
  induction l with
  | nil => intro out _ j hj; simp at hj
  | cons a as ih =>
    intro out h j hj
    rw [mapListOption] at h
    match hfa : f a, hrest : mapListOption f as with
    | some b, some bs =>
      rw [hfa, hrest] at h
      simp only [Option.some.injEq] at h
      match j with
      | 0 => exact ⟨hj, by rw [← h]; simp [hfa]⟩
      | j + 1 =>
        have hj' : j < as.length := by simpa using hj
        obtain ⟨hja, hout⟩ := ih hrest j hj'
        refine ⟨hj, ?_⟩
        rw [← h]
        simpa using hout
    | some b, none => rw [hfa, hrest] at h; exact absurd h (by simp)
    | none, some bs => rw [hfa, hrest] at h; exact absurd h (by simp)
    | none, none => rw [hfa, hrest] at h; exact absurd h (by simp)

/-- C5 counterexample: a citation whose `rawIndex` is absent from the
collector's map is returned as a copy with `sourceType = "unknown"`, but its
metadata is NOT emptied: here a non-empty metadata bag survives, contradicting
the claim that the copy comes back with empty metadata. -/
theorem c5_absent_keeps_metadata_cex :
    mapCitationsToCollector
        [{ rawIndex := some 5, metadata := [("k", MVal.str "v")] }] [] =
      some [{ rawIndex := some 5
              metadata := [("k", MVal.str "v")]
              sourceType := some "unknown" }] ∧
    ({ rawIndex := some 5
       metadata := [("k", MVal.str "v")]
       sourceType := some "unknown" } : Citation).metadata ≠ [] := by
  constructor
  · rfl
  · simp

/-- C5 (amended): for a citation whose `rawIndex` has no entry in the
Collector's aggregator-index map, `map_citations_to_collector` never raises
on that citation; it yields a copy with `sourceType = "unknown"` and every
other field (including metadata) unchanged, and whenever the whole call
returns, the citation appears at its position in the output list. -/
theorem c5_absent_never_raises (ledger : List LedgerEntry)
    (cits : List Citation) (j : Nat) (hj : j < cits.length)
    (habs : aggLookup ledger (cits.get ⟨j, hj⟩).rawIndex = none) :
    mapOneToCollector ledger (cits.get ⟨j, hj⟩) =
      some { cits.get ⟨j, hj⟩ with sourceType := some "unknown" } ∧
    ∀ out, mapCitationsToCollector cits ledger = some out →
      out.length = cits.length ∧
      out[j]? = some { cits.get ⟨j, hj⟩ with sourceType := some "unknown" } := by
  have h1 : mapOneToCollector ledger (cits.get ⟨j, hj⟩) =
      some { cits.get ⟨j, hj⟩ with sourceType := some "unknown" } := by
    rw [mapOneToCollector, habs]
  refine ⟨h1, ?_⟩
  intro out hout
  refine ⟨mapListOption_length hout, ?_⟩
  obtain ⟨hj2, hget⟩ := mapListOption_getElem? hout j hj
  rw [hget]
  exact h1

/-- Witness for the amended C5 at a concrete input. -/
theorem c5_absent_never_raises_witness :
    mapOneToCollector []
        ({ rawIndex := some 5, metadata := [("k", MVal.str "v")] } : Citation) =
      some { rawIndex := some 5
             metadata := [("k", MVal.str "v")]
             sourceType := some "unknown" } :=
  (c5_absent_never_raises []
    [{ rawIndex := some 5, metadata := [("k", MVal.str "v")] }] 0
    (by norm_num) rfl).1

/-- C6: a citation whose `index - 1` position falls outside the bounds of the
flattened source sequence passes through `map_citations_to_sources`
unchanged — no `sourceType` assigned, no metadata populated, no error — and
it still occupies its position in the output list. -/
theorem c6_out_of_range_unchanged (agg : AggregateSearchResult)
    (cits : List Citation) (j : Nat) (hj : j < cits.length)
    (hoor : ((cits.get ⟨j, hj⟩).index : Int) - 1 < 0 ∨
      ((flattenAgg agg).length : Int) ≤ ((cits.get ⟨j, hj⟩).index : Int) - 1) :
    (mapCitationsToSources cits agg).length = cits.length ∧
    (mapCitationsToSources cits agg)[j]? = some (cits.get ⟨j, hj⟩) := by
  constructor
  · simp [mapCitationsToSources]
  · rw [mapCitationsToSources]
    dsimp only
    rw [List.getElem?_map, List.getElem?_eq_getElem hj]
    have hg : cits[j] = cits.get ⟨j, hj⟩ := rfl
    rw [Option.map_some']
    rw [hg, if_pos hoor]

/-- Witness for C6 at a concrete input. -/
theorem c6_out_of_range_unchanged_witness :
    (mapCitationsToSources [{ index := 1 }] {}).length =
      ([{ index := 1 }] : List Citation).length ∧
    (mapCitationsToSources [{ index := 1 }] {})[0]? =
      some (([{ index := 1 }] : List Citation).get ⟨0, by norm_num⟩) :=
  c6_out_of_range_unchanged {} [{ index := 1 }] 0 (by norm_num)
    (Or.inr (by simp [flattenAgg]))

theorem aggLookup_foldl_skip (rest : List LedgerEntry) (k : Nat)
    (acc : Option (String × SourceObj)) (h : ∀ e ∈ rest, e.2.2 ≠ k) :
    rest.foldl (fun acc e => if e.2.2 = k then some (e.1, e.2.1) else acc) acc =
      acc := by
  induction rest generalizing acc with
  | nil => rfl
  | cons e es ih =>
    rw [List.foldl_cons, if_neg (h e (List.mem_cons_self e es))]
    exact ih acc (fun x hx => h x (List.mem_cons_of_mem e hx))

theorem ledgerOf_keys (flat : List (SourceObj × String)) :
    ∀ i, ∀ e ∈ ledgerOf flat i, i ≤ e.2.2 ∧ e.2.2 < i + flat.length := by
  induction flat with
  | nil => intro i e he; simp [ledgerOf] at he
  | cons p rest ih =>
    intro i e he
    match p with
    | (o, s) =>
      rw [ledgerOf] at he
      rcases List.mem_cons.mp he with h1 | h1
      · rw [h1]
        simp
      · have := ih (i + 1) e h1
        simp only [List.length_cons]
        omega

theorem aggLookup_ledgerOf (flat : List (SourceObj × String)) :
    ∀ i k, i ≤ k → k < i + flat.length →
      aggLookup (ledgerOf flat i) (some k) =
        (flat[k - i]?).map fun p => (p.2, p.1) := by
  induction flat with
  | nil => intro i k h1 h2; simp at h2; omega
  | cons p rest ih =>
    intro i k h1 h2
    match p with
    | (o, s) =>
      rw [ledgerOf, aggLookup, List.foldl_cons]
      by_cases hik : i = k
      · rw [if_pos (by rw [hik])]
        rw [aggLookup_foldl_skip _ _ _ ?_]
        · rw [hik, Nat.sub_self]
          simp
        · intro e he
          have := ledgerOf_keys rest (i + 1) e he
          omega
      · rw [if_neg (by simpa using fun hc => hik hc)]
        have h1' : i + 1 ≤ k := by omega
        have h2' : k < (i + 1) + rest.length := by
          simp only [List.length_cons] at h2
          omega
        have := ih (i + 1) k h1' h2'
        rw [aggLookup] at this
        rw [this]
        have hsub : k - i = (k - (i + 1)) + 1 := by omega
        rw [hsub]
        simp

/-- Every flattened pair tags the object with its own category string, so the
identity mapper's string-keyed population agrees with the positional
mapper's object-keyed one on it. -/
theorem populateFromLedger_flatten (agg : AggregateSearchResult)
    (p : SourceObj × String) (hp : p ∈ flattenAgg agg) (cit : Citation) :
    populateFromLedger p.2 p.1 cit = some (populatePositional p cit) := by
  rw [flattenAgg] at hp
  simp only [List.mem_append, List.mem_map] at hp
  rcases hp with ((⟨c, _, hc⟩ | ⟨g, _, hg⟩) | ⟨w, _, hw⟩) | ⟨d, _, hd⟩
  · rw [← hc]; rfl
  · rw [← hg]; rfl
  · rw [← hw]; rfl
  · rw [← hd]; rfl

/-- C2 counterexample: with an empty aggregate, its exactly-matching (empty)
ledger, and the single equivalent citation `index = rawIndex = 1`, the two
mappers disagree: the positional mapper leaves the citation untouched while
the collector mapper stamps `sourceType = "unknown"`. -/
theorem c2_mappers_differ_out_of_range_cex :
    mapCitationsToCollector [{ index := 1, rawIndex := some 1 }]
        (ledgerOf (flattenAgg {}) 1) ≠
      some (mapCitationsToSources [{ index := 1, rawIndex := some 1 }] {}) := by
  intro h
  have h1 : mapCitationsToCollector [{ index := 1, rawIndex := some 1 }]
      (ledgerOf (flattenAgg {}) 1) =
      some [{ index := 1, rawIndex := some 1, sourceType := some "unknown" }] := rfl
  have h2 : mapCitationsToSources [{ index := 1, rawIndex := some 1 }] {} =
      [{ index := 1, rawIndex := some 1 }] := rfl
  rw [h1, h2] at h
  simp only [Option.some.injEq, List.cons.injEq] at h
  have := congrArg Citation.sourceType h.1
  simp at this

/-- C2 (amended): for a Collector whose ledger holds exactly the flattened
sources with aggregator indices `1..N` in category order, and a citation list
in which every citation has `rawIndex = index` and an in-range index
`1 ≤ index ≤ N`, `map_citations_to_collector` and `map_citations_to_sources`
return identical citation lists (all fields, hence the same `sourceType` and
populated metadata).  Out-of-range citations break the equivalence, as the
counterexample shows. -/
theorem c2_mappers_agree_in_range (agg : AggregateSearchResult)
    (cits : List Citation)
    (h : ∀ c ∈ cits, c.rawIndex = some c.index ∧ 1 ≤ c.index ∧
      c.index ≤ (flattenAgg agg).length) :
    mapCitationsToCollector cits (ledgerOf (flattenAgg agg) 1) =
      some (mapCitationsToSources cits agg) := by
  induction cits with
  | nil => rfl
  | cons c cs ih =>
    obtain ⟨hraw, hlo, hhi⟩ := h c (List.mem_cons_self c cs)
    have hrest := ih fun x hx => h x (List.mem_cons_of_mem c hx)
    have hk1 : 1 ≤ c.index := hlo
    have hk2 : c.index < 1 + (flattenAgg agg).length := by omega
    have hlook : aggLookup (ledgerOf (flattenAgg agg) 1) (some c.index) =
        ((flattenAgg agg)[c.index - 1]?).map fun p => (p.2, p.1) :=
      aggLookup_ledgerOf (flattenAgg agg) 1 c.index hk1 hk2
    have hin : c.index - 1 < (flattenAgg agg).length := by omega
    obtain ⟨p, hp⟩ : ∃ p, (flattenAgg agg)[c.index - 1]? = some p :=
      ⟨_, List.getElem?_eq_getElem hin⟩
    have hpmem : p ∈ flattenAgg agg := by
      have := List.getElem?_mem hp
      exact this
    rw [mapCitationsToCollector, mapListOption]
    rw [show mapListOption (mapOneToCollector (ledgerOf (flattenAgg agg) 1)) cs =
      mapCitationsToCollector cs (ledgerOf (flattenAgg agg) 1) from rfl, hrest]
    have hone : mapOneToCollector (ledgerOf (flattenAgg agg) 1) c =
        some (populatePositional p c) := by
      rw [mapOneToCollector, hraw, hlook, hp]
      simp only [Option.map_some']
      exact populateFromLedger_flatten agg p hpmem c
    rw [hone]
    have hsrc : mapCitationsToSources (c :: cs) agg =
        populatePositional p c :: mapCitationsToSources cs agg := by
      rw [mapCitationsToSources, List.map_cons]
      have hcond : ¬ (((c.index : Int) - 1 < 0) ∨
          (((flattenAgg agg).length : Int) ≤ (c.index : Int) - 1)) := by
        push_neg
        constructor
        · omega
        · omega
      rw [if_neg hcond, hp]
      rfl
    rw [hsrc]

/-- Witness for the amended C2 at a concrete input. -/
theorem c2_mappers_agree_in_range_witness :
    mapCitationsToCollector [{ index := 1, rawIndex := some 1 }]
        (ledgerOf (flattenAgg
          { web_search_results :=
              [{ link := "l", title := "t", snippet := "s", position := 0,
                 dictRepr := "w" }] }) 1) =
      some (mapCitationsToSources [{ index := 1, rawIndex := some 1 }]
        { web_search_results :=
            [{ link := "l", title := "t", snippet := "s", position := 0,
               dictRepr := "w" }] }) :=
  c2_mappers_agree_in_range _ _ (by
    intro c hc
    simp only [List.mem_singleton] at hc
    subst hc
    refine ⟨rfl, by norm_num, ?_⟩
    simp [flattenAgg])

/-- C7 counterexample: for the text `". [1]"` with bracket span `(2, 5)`,
the claimed backward rule stops at the terminator at position 0 and skips
the following whitespace, giving snippet start 2; the code's backward loop
exits at `s = 0` without ever examining position 0 and returns 0, so the
leading terminator and whitespace are (contrary to the claim) included. -/
theorem c7_terminator_at_zero_cex :
    claimedSnippetStart (". [1]").toList 2 = 2 ∧
    (expandCitationSpanToSentence (". [1]").toList 2 5).1 = 0 ∧ (2 : Nat) ≠ 0 := by
  refine ⟨by decide, by decide, by norm_num⟩

theorem backScanLoop_char (t : List Char) : ∀ s,
    (backScanLoop t s = 0 ∧ ∀ j, 1 ≤ j → j ≤ s → ¬ isSentenceEnder (t.getD j 'x')) ∨
    (∃ j, 1 ≤ j ∧ j ≤ s ∧ isSentenceEnder (t.getD j 'x') ∧
      (∀ k, j < k → k ≤ s → ¬ isSentenceEnder (t.getD k 'x')) ∧
      backScanLoop t s = skipWs t (j + 1)) := by
  intro s
  induction s with
  | zero =>
    left
    exact ⟨rfl, fun j h1 h2 => absurd (Nat.le_trans h1 h2) (by norm_num)⟩
  | succ s ih =>
    by_cases hend : isSentenceEnder (t.getD (s + 1) 'x')
    · right
      refine ⟨s + 1, by omega, Nat.le_refl _, hend, ?_, ?_⟩
      · intro k hk1 hk2
        omega
      · rw [backScanLoop, if_pos hend]
    · rcases ih with ⟨h0, hall⟩ | ⟨j, hj1, hj2, hjend, hnone, heq⟩
      · left
        refine ⟨by rw [backScanLoop, if_neg hend]; exact h0, ?_⟩
        intro j h1 h2
        by_cases hj : j = s + 1
        · exact hj ▸ hend
        · exact hall j h1 (by omega)
      · right
        refine ⟨j, hj1, by omega, hjend, ?_, ?_⟩
        · intro k hk1 hk2
          by_cases hk : k = s + 1
          · exact hk ▸ hend
          · exact hnone k hk1 (by omega)
        · rw [backScanLoop, if_neg hend]
          exact heq

theorem fwdScanLoop_char (t : List Char) (e : Nat) :
    (fwdScanLoop t e = max e t.length ∧
      ∀ j, e ≤ j → j < t.length → ¬ isSentenceEnder (t.getD j 'x')) ∨
    (∃ j, e ≤ j ∧ j < t.length ∧ isSentenceEnder (t.getD j 'x') ∧
      (∀ k, e ≤ k → k < j → ¬ isSentenceEnder (t.getD k 'x')) ∧
      fwdScanLoop t e = skipWs t (j + 1)) := by
  suffices H : ∀ fuel e, t.length - e ≤ fuel →
      (fwdScanAux t fuel e = max e t.length ∧
        ∀ j, e ≤ j → j < t.length → ¬ isSentenceEnder (t.getD j 'x')) ∨
      (∃ j, e ≤ j ∧ j < t.length ∧ isSentenceEnder (t.getD j 'x') ∧
        (∀ k, e ≤ k → k < j → ¬ isSentenceEnder (t.getD k 'x')) ∧
        fwdScanAux t fuel e = skipWs t (j + 1)) by
    exact H (t.length - e) e (Nat.le_refl _)
  intro fuel
  induction fuel with
  | zero =>
    intro e he
    have hle : t.length ≤ e := by omega
    left
    constructor
    · rw [fwdScanAux]
      omega
    · intro j h1 h2
      omega
  | succ n ih =>
    intro e he
    by_cases hel : e < t.length
    · have hgetD : t.getD e 'x' = t.get ⟨e, hel⟩ := by
        rw [List.getD_eq_getElem t 'x' hel]
        rfl
      by_cases hend : isSentenceEnder (t.get ⟨e, hel⟩)
      · right
        refine ⟨e, Nat.le_refl _, hel, by rw [hgetD]; exact hend, ?_, ?_⟩
        · intro k hk1 hk2
          omega
        · rw [fwdScanAux, dif_pos hel, if_pos hend]
      · have hstep : fwdScanAux t (n + 1) e = fwdScanAux t n (e + 1) := by
          rw [fwdScanAux, dif_pos hel, if_neg hend]
        rcases ih (e + 1) (by omega) with ⟨h0, hall⟩ | ⟨j, hj1, hj2, hjend, hnone, heq⟩
        · left
          constructor
          · rw [hstep, h0]
            omega
          · intro j h1 h2
            by_cases hj : j = e
            · subst hj
              rw [hgetD]
              exact hend
            · exact hall j (by omega) h2
        · right
          refine ⟨j, by omega, hj2, hjend, ?_, by rw [hstep]; exact heq⟩
          intro k hk1 hk2
          by_cases hk : k = e
          · subst hk
            rw [hgetD]
            exact hend
          · exact hnone k (by omega) hk2
    · left
      constructor
      · rw [fwdScanAux, dif_neg hel]
        omega
      · intro j h1 h2
        omega

/-- C7 (amended): the snippet span of `_expand_citation_span_to_sentence` is
computed by scanning backward from the match start to the nearest preceding
sentence terminator at a position ≥ 1 — a terminator at position 0 is not
detected, the scan then runs to the text start — then skipping following
whitespace; and forward from the match end to the nearest following
terminator, then past its trailing whitespace, or to the text end.  For the
text `"A. [1] B."` the bracket's snippet span is exactly `"[1] B."`. -/
theorem c7_snippet_sentence_bounds (t : List Char) (s e : Nat) :
    ((expandCitationSpanToSentence t s e).1 = 0 ∧
      (∀ j, 1 ≤ j → j ≤ s → ¬ isSentenceEnder (t.getD j 'x')) ∨
     (∃ j, 1 ≤ j ∧ j ≤ s ∧ isSentenceEnder (t.getD j 'x') ∧
       (∀ k, j < k → k ≤ s → ¬ isSentenceEnder (t.getD k 'x')) ∧
       (expandCitationSpanToSentence t s e).1 = skipWs t (j + 1))) ∧
    ((expandCitationSpanToSentence t s e).2 = max e t.length ∧
      (∀ j, e ≤ j → j < t.length → ¬ isSentenceEnder (t.getD j 'x')) ∨
     (∃ j, e ≤ j ∧ j < t.length ∧ isSentenceEnder (t.getD j 'x') ∧
       (∀ k, e ≤ k → k < j → ¬ isSentenceEnder (t.getD k 'x')) ∧
       (expandCitationSpanToSentence t s e).2 = skipWs t (j + 1))) ∧
    (extractCitations (("A. [1] B.").toList)).map
        (fun c => (c.startIndex, c.endIndex, c.snippetStartIndex, c.snippetEndIndex)) =
      [(some 3, some 6, some 3, some 9)] ∧
    ((("A. [1] B.").toList.drop 3).take 6 = ("[1] B.").toList) := by
  refine ⟨?_, ?_, by decide, by decide⟩
  · rcases backScanLoop_char t s with h | h
    · exact Or.inl h
    · exact Or.inr h
  · rcases fwdScanLoop_char t e with h | h
    · exact Or.inl h
    · exact Or.inr h

/-- C4 counterexample: for the raw text `"[10] x"` and an empty collector,
the returned citation has span `(0, 4)` — the span of `[10]` in the INPUT
text — while the returned relabelled text is `"[1] x"`, whose slice `[0,4)`
is `"[1] "`, not the token `"[1]"`.  So `startIndex`/`endIndex` are offsets
into the raw input, not the returned text, contradicting the claim. -/
theorem c4_offsets_are_raw_text_offsets_cex :
    ((finalizeCitationsWithCollector (("[10] x").toList) []).2).map
        (fun c => (c.index, c.startIndex, c.endIndex)) = [(1, some 0, some 4)] ∧
    (finalizeCitationsWithCollector (("[10] x").toList) []).1 = ("[1] x").toList ∧
    ((((finalizeCitationsWithCollector (("[10] x").toList) []).1).drop 0).take 4 ≠
      '[' :: (natToChars 1 ++ [']'])) := by
  refine ⟨by decide, by decide, by decide⟩

/-- C4 (amended): every citation returned by
`finalize_citations_with_collector` carries in `startIndex`/`endIndex` the
offsets of its bracket in the INPUT text: the input's slice between them is a
bracket token whose digits parse to the citation's `rawIndex`.  (They locate
the bracket in the relabelled text only when no digit lengths change.) -/
theorem c4_offsets_locate_bracket_in_input (raw : List Char)
    (ledger : List LedgerEntry) (c : Citation)
    (hc : c ∈ (finalizeCitationsWithCollector raw ledger).2) :
    ∃ s e r ds, c.startIndex = some s ∧ c.endIndex = some e ∧
      c.rawIndex = some r ∧
      (raw.drop s).take (e - s) = '[' :: (ds ++ [']']) ∧
      ds ≠ [] ∧ (∀ d ∈ ds, isDigitChar d) ∧ digitsToNat ds = r := by
  rw [finalizeCitationsWithCollector] at hc
  by_cases hraw : raw = []
  · rw [if_pos hraw] at hc
    simp at hc
  · rw [if_neg hraw] at hc
    by_cases hms : scanAux raw 0 = []
    · rw [if_pos hms] at hc
      simp at hc
    · rw [if_neg hms] at hc
      dsimp only at hc
      rw [List.mem_map] at hc
      obtain ⟨m, hm, hcm⟩ := hc
      obtain ⟨hslice, hne, hdig, _⟩ := scanAux_slice raw 0 m hm
      have hspan := (scanAux_start_ge raw 0 m hm).2
      refine ⟨m.start, m.stop, digitsToNat m.ds, m.ds, ?_, ?_, ?_, ?_, hne, hdig, rfl⟩
      · rw [← hcm]
        cases (ledger.find? fun en => en.2.2 = digitsToNat m.ds) <;> rfl
      · rw [← hcm]
        cases (ledger.find? fun en => en.2.2 = digitsToNat m.ds) <;> rfl
      · rw [← hcm]
        cases (ledger.find? fun en => en.2.2 = digitsToNat m.ds) <;> rfl
      · have hsub : m.stop - m.start = m.ds.length + 2 := by omega
        rw [hsub]
        simpa using hslice

/-- Witness for the amended C4 at a concrete input. -/
theorem c4_offsets_locate_bracket_in_input_witness :
    ∃ s e r ds,
      (({ index := 1, rawIndex := some 10, startIndex := some 0,
          endIndex := some 4, sourceType := some "unknown" } : Citation).startIndex
        = some s) ∧
      (({ index := 1, rawIndex := some 10, startIndex := some 0,
          endIndex := some 4, sourceType := some "unknown" } : Citation).endIndex
        = some e) ∧
      (({ index := 1, rawIndex := some 10, startIndex := some 0,
          endIndex := some 4, sourceType := some "unknown" } : Citation).rawIndex
        = some r) ∧
      ((("[10] x").toList.drop s).take (e - s) = '[' :: (ds ++ [']'])) ∧
      ds ≠ [] ∧ (∀ d ∈ ds, isDigitChar d) ∧ digitsToNat ds = r :=
  c4_offsets_locate_bracket_in_input (("[10] x").toList) []
    { index := 1, rawIndex := some 10, startIndex := some 0,
      endIndex := some 4, sourceType := some "unknown" } (by decide)

/-- C8 counterexample: with ledger entries at aggregator indices 1 and 2 and
the model answer `"[0][2]"`, `finalize_citations_with_collector` yields
citations `(index 1, raw 0)` and `(index 2, raw 2)`, so the maximum final
bracket is 2 and the citation with index 2 points at old position 1 — yet
after `reorder_collector_to_match_final_brackets` the materialized order is
the single entry with aggregator index 2 sitting at position 0: the unfilled
slot for bracket 1 was dropped, which shifts every later entry, so position
`i = 1` does not hold the item used by bracket 2. -/
theorem c8_gap_shifts_positions_cex :
    ((finalizeCitationsWithCollector (("[0][2]").toList) c8CexLedger).2).map
        (fun c => (c.index, c.rawIndex)) = [(1, some 0), (2, some 2)] ∧
    maxCitIndex ((finalizeCitationsWithCollector (("[0][2]").toList) c8CexLedger).2) = 2 ∧
    c8CexLedger.length = 2 ∧
    (reorderCollectorToMatchFinalBrackets c8CexLedger
        ((finalizeCitationsWithCollector (("[0][2]").toList) c8CexLedger).2)).map
      (fun nl => nl.map fun en => en.2.2) = some [2] ∧
    (reorderCollectorToMatchFinalBrackets c8CexLedger
        ((finalizeCitationsWithCollector (("[0][2]").toList) c8CexLedger).2)).map
      (fun nl => nl[1]?) = some none := by
  refine ⟨by decide, by decide, by decide, by decide, by decide⟩

/-- Every index occurring in the list is bounded by `maxCitIndex`. -/
theorem le_maxCitIndex_aux (cs : List Citation) :
    ∀ a : Nat, (∀ c ∈ cs, c.index ≤ cs.foldl (fun a c => max a c.index) a) ∧
      a ≤ cs.foldl (fun a c => max a c.index) a := by
  induction cs with
  | nil => intro a; exact ⟨fun c hc => absurd hc (List.not_mem_nil c), Nat.le_refl a⟩
  | cons c cs ih =>
    intro a
    refine ⟨?_, ?_⟩
    · intro d hd
      rcases List.mem_cons.mp hd with h | h
      · subst h
        exact Nat.le_trans (Nat.le_max_right a d.index) ((ih (max a d.index)).2)
      · exact (ih (max a c.index)).1 d h
    · exact Nat.le_trans (Nat.le_max_left a c.index) ((ih (max a c.index)).2)

theorem le_maxCitIndex (cs : List Citation) : ∀ c ∈ cs, c.index ≤ maxCitIndex cs :=
  (le_maxCitIndex_aux cs 0).1

/-- `filterMap id` of an all-`some` list keeps the length. -/
theorem filterMap_id_length_all_some {α : Type} :
    ∀ l : List (Option α), (∀ o ∈ l, o.isSome) → (l.filterMap id).length = l.length := by
  intro l
  induction l with
  | nil => intro _; rfl
  | cons o l ih =>
    intro h
    cases o with
    | none =>
      have hn := h none (List.mem_cons_self _ _)
      simp at hn
    | some x =>
      have hfm0 : (some x :: l).filterMap id = x :: l.filterMap id := by
        simp [List.filterMap]
      rw [hfm0]
      simp only [List.length_cons]
      rw [ih fun o ho => h o (List.mem_cons_of_mem _ ho)]

/-- `filterMap id` of an all-`some` list is position-wise the stripped list. -/
theorem filterMap_id_getElem_all_some {α : Type} :
    ∀ l : List (Option α), (∀ o ∈ l, o.isSome) →
      ∀ i : Nat, (l.filterMap id)[i]? = (l[i]?).bind id := by
  intro l
  induction l with
  | nil => intro _ i; rfl
  | cons o l ih =>
    intro h i
    cases o with
    | none =>
      have hn := h none (List.mem_cons_self _ _)
      simp at hn
    | some x =>
      have hfm : (some x :: l).filterMap id = x :: l.filterMap id := by
        simp [List.filterMap]
      rw [hfm]
      cases i with
      | zero => simp
      | succ j =>
        have := ih (fun o ho => h o (List.mem_cons_of_mem _ ho)) j
        simpa using this

/-- Step equation: a citation with falsy `rawIndex` is skipped. -/
theorem reorderLoop_cons_skip1 (L : List α) (maxIdx : Nat) (c : Citation)
    (cs : List Citation) (acc : List (Option α))
    (h : truthyRaw c.rawIndex = false) :
    reorderLoop L maxIdx (c :: cs) acc = reorderLoop L maxIdx cs acc := by
  rw [reorderLoop, if_pos h]

/-- Step equation: a citation whose old position is out of range is skipped. -/
theorem reorderLoop_cons_skip2 (L : List α) (maxIdx : Nat) (c : Citation)
    (cs : List Citation) (acc : List (Option α))
    (h1 : truthyRaw c.rawIndex = true)
    (h2 : L.length ≤ c.rawIndex.getD 0 - 1) :
    reorderLoop L maxIdx (c :: cs) acc = reorderLoop L maxIdx cs acc := by
  rw [reorderLoop, if_neg (by simp [h1])]
  dsimp only
  rw [if_pos h2]

/-- Step equation: a citation with a valid old position and an in-range slot
reads slot `index - 1` and fills it if empty. -/
theorem reorderLoop_cons_act (L : List α) (maxIdx : Nat) (c : Citation)
    (cs : List Citation) (acc : List (Option α))
    (h1 : truthyRaw c.rawIndex = true)
    (h2 : c.rawIndex.getD 0 - 1 < L.length)
    (h3 : 1 ≤ c.index) (h4 : c.index ≤ maxIdx) :
    reorderLoop L maxIdx (c :: cs) acc =
      match acc[c.index - 1]? with
      | some none =>
          reorderLoop L maxIdx cs (acc.set (c.index - 1) L[c.rawIndex.getD 0 - 1]?)
      | some (some _) => reorderLoop L maxIdx cs acc
      | none => none := by
  rw [reorderLoop, if_neg (by simp [h1])]
  dsimp only
  rw [if_neg (Nat.not_le.mpr h2)]
  have hslot : ¬ ((c.index : Int) - 1 < 0) := by omega
  rw [if_neg hslot]
  have hcond : (0 : Int) ≤ (c.index : Int) - 1 ∧ (c.index : Int) - 1 < (maxIdx : Int) := by
    constructor <;> omega
  rw [if_pos hcond]
  have htn : ((c.index : Int) - 1).toNat = c.index - 1 := by omega
  rw [htn]

/-- Invariant of the reorder loop: it never raises when every index is in
range `1..maxIdx`, keeps the table length, and each slot ends up holding its
previous occupant if any, else the item of the FIRST citation that validly
fills it, else stays empty. -/
theorem reorderLoop_spec {α : Type} (L : List α) (maxIdx : Nat) :
    ∀ (cs : List Citation) (acc : List (Option α)),
      acc.length = maxIdx →
      (∀ c ∈ cs, 1 ≤ c.index ∧ c.index ≤ maxIdx) →
      ∃ acc', reorderLoop L maxIdx cs acc = some acc' ∧
        acc'.length = maxIdx ∧
        ∀ i, i < maxIdx → ∀ cur, acc[i]? = some cur →
          acc'[i]? = some (match cur with
            | some x => some x
            | none => (fillerFor L.length cs i).bind
                fun c => L[c.rawIndex.getD 0 - 1]?) := by
  intro cs
  induction cs with
  | nil =>
    intro acc hlen hb
    refine ⟨acc, rfl, hlen, ?_⟩
    intro i hi cur hcur
    rw [hcur]
    cases cur with
    | some x => rfl
    | none => rfl
  | cons c cs ih =>
    intro acc hlen hb
    have hc := hb c (List.mem_cons_self _ _)
    have hbcs : ∀ d ∈ cs, 1 ≤ d.index ∧ d.index ≤ maxIdx :=
      fun d hd => hb d (List.mem_cons_of_mem _ hd)
    by_cases h1 : truthyRaw c.rawIndex = false
    · rw [reorderLoop_cons_skip1 L maxIdx c cs acc h1]
      obtain ⟨acc', he, hl, hs⟩ := ih acc hlen hbcs
      refine ⟨acc', he, hl, ?_⟩
      intro i hi cur hcur
      rw [hs i hi cur hcur]
      cases cur with
      | some x => rfl
      | none =>
        have hf : fillerFor L.length (c :: cs) i = fillerFor L.length cs i := by
          simp only [fillerFor]
          exact List.find?_cons_of_neg _ (by simp [h1])
        rw [hf]
    · have h1t : truthyRaw c.rawIndex = true := by
        cases htr : truthyRaw c.rawIndex with
        | false => exact absurd htr h1
        | true => rfl
      by_cases h2 : L.length ≤ c.rawIndex.getD 0 - 1
      · rw [reorderLoop_cons_skip2 L maxIdx c cs acc h1t h2]
        obtain ⟨acc', he, hl, hs⟩ := ih acc hlen hbcs
        refine ⟨acc', he, hl, ?_⟩
        intro i hi cur hcur
        rw [hs i hi cur hcur]
        cases cur with
        | some x => rfl
        | none =>
          have hf : fillerFor L.length (c :: cs) i = fillerFor L.length cs i := by
            simp only [fillerFor]
            exact List.find?_cons_of_neg _ (by simp [Nat.not_lt.mpr h2])
          rw [hf]
      · have h2l : c.rawIndex.getD 0 - 1 < L.length := Nat.lt_of_not_le h2
        rw [reorderLoop_cons_act L maxIdx c cs acc h1t h2l hc.1 hc.2]
        have hi0 : c.index - 1 < maxIdx := by omega
        have hi0a : c.index - 1 < acc.length := by omega
        rw [List.getElem?_eq_getElem hi0a]
        cases hcur0 : acc[c.index - 1] with
        | some x =>
          obtain ⟨acc', he, hl, hs⟩ := ih acc hlen hbcs
          refine ⟨acc', he, hl, ?_⟩
          intro i hi cur hcur
          rw [hs i hi cur hcur]
          cases cur with
          | some y => rfl
          | none =>
            have hine : i ≠ c.index - 1 := by
              intro hie
              rw [hie, List.getElem?_eq_getElem hi0a, hcur0] at hcur
              exact Option.noConfusion (Option.some.inj hcur)
            have hf : fillerFor L.length (c :: cs) i = fillerFor L.length cs i := by
              simp only [fillerFor]
              refine List.find?_cons_of_neg _ ?_
              have : c.index ≠ i + 1 := by omega
              simp [this]
            rw [hf]
        | none =>
          have hlen2 : (acc.set (c.index - 1) L[c.rawIndex.getD 0 - 1]?).length = maxIdx := by
            rw [List.length_set]; exact hlen
          obtain ⟨acc', he, hl, hs⟩ := ih (acc.set (c.index - 1) L[c.rawIndex.getD 0 - 1]?) hlen2 hbcs
          refine ⟨acc', he, hl, ?_⟩
          intro i hi cur hcur
          by_cases hii : i = c.index - 1
          · have hcn : cur = none := by
              rw [hii, List.getElem?_eq_getElem hi0a, hcur0] at hcur
              exact (Option.some.inj hcur).symm
            subst hcn
            have hi1 : c.index - 1 = i := hii.symm
            have hset : (acc.set (c.index - 1) L[c.rawIndex.getD 0 - 1]?)[i]? =
                some L[c.rawIndex.getD 0 - 1]? := by
              rw [hi1]
              refine List.getElem?_set_self ?_
              omega
            have hLs : L[c.rawIndex.getD 0 - 1]? = some L[c.rawIndex.getD 0 - 1] :=
              List.getElem?_eq_getElem h2l
            nth_rewrite 2 [hLs] at hset
            have := hs i hi (some L[c.rawIndex.getD 0 - 1]) hset
            rw [this]
            have hf : fillerFor L.length (c :: cs) i = some c := by
              simp only [fillerFor]
              refine List.find?_cons_of_pos _ ?_
              have hidx : c.index = i + 1 := by omega
              simp [h1t, hidx, h2l]
            rw [hf]
            dsimp only [Option.bind]
            rw [hLs]
          · have hset : (acc.set (c.index - 1) L[c.rawIndex.getD 0 - 1]?)[i]? = acc[i]? :=
              List.getElem?_set_ne (fun h => hii h.symm)
            rw [hset.symm] at hcur
            rw [hs i hi cur hcur]
            cases cur with
            | some y => rfl
            | none =>
              have hf : fillerFor L.length (c :: cs) i = fillerFor L.length cs i := by
                simp only [fillerFor]
                refine List.find?_cons_of_neg _ ?_
                have : c.index ≠ i + 1 := by omega
                simp [this]
              rw [hf]

/-- C8 (amended): `reorder_collector_to_match_final_brackets` only realises
the claimed correspondence when EVERY bracket slot `1..max` receives a valid
filler (otherwise dropped `None` slots shift later positions).  Under that
hypothesis the new materialized order has exactly `max` entries and position
`i` holds the old ledger entry at position `rawIndex - 1` of the first
citation validly filling bracket `i + 1`.  (The function mutates the
collector; `finalize_citations_with_collector` itself never calls it.) -/
theorem c8_reorder_positions {α : Type} (L : List α) (cits : List Citation)
    (hidx : ∀ c ∈ cits, 1 ≤ c.index)
    (hfill : ∀ i, i < maxCitIndex cits → (fillerFor L.length cits i).isSome) :
    ∃ out, reorderCollectorToMatchFinalBrackets L cits = some out ∧
      out.length = maxCitIndex cits ∧
      ∀ i, i < maxCitIndex cits →
        out[i]? = (fillerFor L.length cits i).bind
          fun c => L[c.rawIndex.getD 0 - 1]? := by
  have hb : ∀ c ∈ cits, 1 ≤ c.index ∧ c.index ≤ maxCitIndex cits :=
    fun c hc => ⟨hidx c hc, le_maxCitIndex cits c hc⟩
  have hlen0 : (List.replicate (maxCitIndex cits) (none : Option α)).length =
      maxCitIndex cits := by
    rw [List.length_replicate]
  obtain ⟨acc', he, hl, hs⟩ :=
    reorderLoop_spec L (maxCitIndex cits) cits
      (List.replicate (maxCitIndex cits) none) hlen0 hb
  have hrep : ∀ i, i < maxCitIndex cits →
      (List.replicate (maxCitIndex cits) (none : Option α))[i]? = some none := by
    intro i hi
    rw [List.getElem?_eq_getElem (by simpa using hi)]
    rw [List.getElem_replicate]
  have hslot : ∀ i, i < maxCitIndex cits →
      acc'[i]? = some ((fillerFor L.length cits i).bind
        fun c => L[c.rawIndex.getD 0 - 1]?) := by
    intro i hi
    exact hs i hi none (hrep i hi)
  have hinner : ∀ i, i < maxCitIndex cits →
      ((fillerFor L.length cits i).bind
        fun c => L[c.rawIndex.getD 0 - 1]?).isSome := by
    intro i hi
    cases hfo : fillerFor L.length cits i with
    | none =>
      have hcontra := hfill i hi
      rw [hfo] at hcontra
      simp at hcontra
    | some c =>
      have hp := List.find?_some hfo
      have hb2 : c.rawIndex.getD 0 - 1 < L.length := by
        have := (Bool.and_eq_true _ _).mp hp
        exact of_decide_eq_true this.2
      have hLg : L[c.rawIndex.getD 0 - 1]? = some L[c.rawIndex.getD 0 - 1] :=
        List.getElem?_eq_getElem hb2
      simp [Option.bind, hLg]
  have hall : ∀ o ∈ acc', o.isSome := by
    intro o ho
    obtain ⟨i, hio⟩ := List.mem_iff_getElem?.mp ho
    have hilt : i < maxCitIndex cits := by
      have := (List.getElem?_eq_some.mp hio).1
      omega
    have := hslot i hilt
    rw [hio] at this
    rw [Option.some.inj this]
    exact hinner i hilt
  refine ⟨acc'.filterMap id, ?_, ?_, ?_⟩
  · rw [reorderCollectorToMatchFinalBrackets, he]
    rfl
  · rw [filterMap_id_length_all_some acc' hall, hl]
  · intro i hi
    rw [filterMap_id_getElem_all_some acc' hall i, hslot i hi]
    rfl

/-- Witness for the amended C8 at a concrete pipeline run: model answer
`"[2][1]"` against the two-entry ledger, where both bracket slots are
validly filled. -/
theorem c8_reorder_positions_witness :
    ∃ out, reorderCollectorToMatchFinalBrackets c8CexLedger
        ((finalizeCitationsWithCollector (("[2][1]").toList) c8CexLedger).2) = some out ∧
      out.length = maxCitIndex
        ((finalizeCitationsWithCollector (("[2][1]").toList) c8CexLedger).2) ∧
      ∀ i, i < maxCitIndex
          ((finalizeCitationsWithCollector (("[2][1]").toList) c8CexLedger).2) →
        out[i]? = (fillerFor c8CexLedger.length
            ((finalizeCitationsWithCollector (("[2][1]").toList) c8CexLedger).2) i).bind
          fun c => c8CexLedger[c.rawIndex.getD 0 - 1]? :=
  c8_reorder_positions c8CexLedger
    ((finalizeCitationsWithCollector (("[2][1]").toList) c8CexLedger).2)
    (by decide) (by decide)

/-- C9: the renderer's output is exactly the four claimed segments in the
fixed category order (an empty category contributes no tag pair, an all-empty
result renders as the empty string), and on a result holding only two chunk
results it is the chunk tag pair around the two-element JSON array and
nothing else. -/
theorem c9_stream_renderer_segments :
    (∀ r : AggregateSearchResult,
      formatSearchResultsForStream r =
        claimedSegment "chunk_search"
            (r.chunk_search_results.map ChunkResult.dictRepr) ++
          claimedSegment "graph_search"
            (r.graph_search_results.map GraphResult.dictRepr) ++
          claimedSegment "web_search"
            (r.web_search_results.map WebResult.dictRepr) ++
          claimedSegment "content"
            (r.context_document_results.map ContextDocResult.dictRepr)) ∧
    formatSearchResultsForStream (⟨[], [], [], []⟩ : AggregateSearchResult) = "" ∧
    formatSearchResultsForStream
        { chunk_search_results :=
            [{ id := "i1", document_id := "d1", owner_id := none,
               collection_ids := [], score := 0, text := "t1",
               metadata := [], dictRepr := "dictA" },
             { id := "i2", document_id := "d2", owner_id := none,
               collection_ids := [], score := 0, text := "t2",
               metadata := [], dictRepr := "dictB" }] } =
      "<chunk_search>[dictA, dictB]</chunk_search>" := by
  refine ⟨?_, by decide, by decide⟩
  intro r
  obtain ⟨a, b, c, d⟩ := r
  cases a <;> cases b <;> cases c <;> cases d <;> rfl

end R2R
